import Mathlib

/-!
Verification development for the in-memory fake file system
(`src/fake/registry.rs`, `src/fake/node.rs`, `src/fake/mod.rs`).

Shallow embedding conventions:
* An absolute path is its list of components after the root, so `"/"` is `[]`
  and `"/a/b"` is `["a", "b"]`.
* `SharedContents` cells (`Arc<Mutex<Vec<u8>>>`) are modelled by a heap of
  byte lists indexed by allocation order; a `Node.file` stores the index of
  its cell, so cloning a cell clones the index and mutation through any
  clone is visible to all of them, exactly as in the source.
* Mode words (`SharedMode`) are stored by value in the node.  No claim in
  this development mutates a mode while another clone of the same mode cell
  is being observed, so the aliasing of mode cells is not needed.
* `&mut self` methods that can fail are modelled as `FS → ... → FS × Res α`:
  the returned state is whatever the partial mutation left behind, also on
  error, mirroring Rust's in-place mutation.
* `Registry::rename` and `Registry::move_dir` recurse through a mutable map
  and do not terminate on some adversarial inputs, so the embedding takes a
  fuel parameter; exhausted fuel yields the marker error `Errk.outOfFuel`,
  which a terminating run of the Rust code never produces.
-/

/-- Error kinds (mirrors the `std::io::ErrorKind` values produced by
`create_error` in `src/fake/registry.rs`, plus the fuel marker). -/
inductive Errk where
  | notFound
  | permissionDenied
  | alreadyExists
  | invalidInput
  | other
  | outOfFuel
deriving DecidableEq, Repr

/-- Result of a fallible operation (`std::io::Result`). -/
inductive Res (α : Type) where
  | ok (a : α)
  | err (e : Errk)
deriving DecidableEq, Repr

/-- An absolute path, as its components after the root. -/
abbrev FsPath := List String

/-- `Path::starts_with`: component-wise path-prefix test. -/
def isPre : FsPath → FsPath → Bool
  | [], _ => true
  | _ :: _, [] => false
  | a :: as, b :: bs => decide (a = b) && isPre as bs

/-- `Path::parent`: `None` for the root, otherwise the path minus its last
component. -/
def parentOf : FsPath → Option FsPath
  | [] => none
  | p => some p.dropLast

/-- A registry node (`Node` in `src/fake/node.rs`): a file holds the heap
index of its shared contents cell and its mode word; a directory holds its
mode word. -/
inductive Node where
  | file (contents : Nat) (mode : Nat)
  | dir (mode : Nat)
deriving DecidableEq, Repr

/-- `SharedMode::can_read`: `mode & 0o444 != 0`. -/
def canRead (m : Nat) : Bool := decide (m &&& 0o444 ≠ 0)

/-- `SharedMode::can_write`: `mode & 0o222 != 0`. -/
def canWrite (m : Nat) : Bool := decide (m &&& 0o222 ≠ 0)

/-- The mode word of a node. -/
def nodeMode : Node → Nat
  | .file _ m => m
  | .dir m => m

/-- The heap of shared contents cells; a cell id is its index. -/
abbrev Heap := List (List Nat)

/-- Read a contents cell (ids produced by the registry are always in
range; the default is never reached on reachable states). -/
def heapGet (h : Heap) (i : Nat) : List Nat := h.getD i []

/-- Overwrite a contents cell in place. -/
def heapSet (h : Heap) (i : Nat) (v : List Nat) : Heap := h.set i v

/-- The registry state (`Registry` in `src/fake/registry.rs`): the working
directory, the path-keyed node map as an association list with unique keys,
and the heap backing every contents cell ever allocated (an `Arc` clone held
by an open handle keeps a cell alive after its map entry is removed, so
cells are never deallocated here). -/
structure FS where
  heap : Heap
  cwd : FsPath
  files : List (FsPath × Node)
deriving DecidableEq, Repr

/-- Lookup in the path-keyed map (`HashMap::get`). -/
def lookupN : List (FsPath × Node) → FsPath → Option Node
  | [], _ => none
  | e :: es, p => if e.1 = p then some e.2 else lookupN es p

/-- `Registry::new`: the fresh registry holds the root directory only. -/
def Registry.new : FS := ⟨[], [], [([], .dir 0o644)]⟩

/-- `Registry::get`. -/
def getN (fs : FS) (p : FsPath) : Res Node :=
  match lookupN fs.files p with
  | some n => .ok n
  | none => .err .notFound

/-- `Registry::get_dir` (returns the directory's mode word). -/
def get_dir (fs : FS) (p : FsPath) : Res Nat :=
  match getN fs p with
  | .ok (.dir m) => .ok m
  | .ok (.file _ _) => .err .other
  | .err e => .err e

/-- `Registry::get_dir_writable`. -/
def get_dir_writable (fs : FS) (p : FsPath) : Res Nat :=
  match getN fs p with
  | .ok (.dir m) => if canWrite m then .ok m else .err .permissionDenied
  | .ok (.file _ _) => .err .other
  | .err e => .err e

/-- `Registry::get_file` (returns the file's cell id and mode word). -/
def get_file (fs : FS) (p : FsPath) : Res (Nat × Nat) :=
  match getN fs p with
  | .ok (.file i m) => .ok (i, m)
  | .ok (.dir _) => .err .other
  | .err e => .err e

/-- `Registry::get_file_writable`. -/
def get_file_writable (fs : FS) (p : FsPath) : Res (Nat × Nat) :=
  match getN fs p with
  | .ok (.file i m) => if canWrite m then .ok (i, m) else .err .permissionDenied
  | .ok (.dir _) => .err .other
  | .err e => .err e

/-- `Registry::get_file_if_readable` (as used by `FakeFileSystem::open`;
the readability gate is the one of `get_contents_if_readable`). -/
def get_file_if_readable (fs : FS) (p : FsPath) : Res (Nat × Nat) :=
  match get_file fs p with
  | .ok fi => if canRead fi.2 then .ok fi else .err .permissionDenied
  | .err e => .err e

/-- `Registry::get_file_if_writable` (as used by the write-mode opens; the
gate is the one of `get_contents_if_writable`). -/
def get_file_if_writable (fs : FS) (p : FsPath) : Res (Nat × Nat) :=
  match get_file fs p with
  | .ok fi => if canWrite fi.2 then .ok fi else .err .permissionDenied
  | .err e => .err e

/-- Sequencing of fallible mutations: on error the partially mutated state
is kept, as with Rust's `?` on `&mut self` methods. -/
def thenDo {α β : Type} (x : FS × Res α) (f : FS → α → FS × Res β) : FS × Res β :=
  match x with
  | (fs, .ok a) => f fs a
  | (fs, .err e) => (fs, .err e)

/-- `Registry::insert`: refuse existing keys, demand a writable parent
directory for non-root keys, then add the entry. -/
def insertN (fs : FS) (p : FsPath) (n : Node) : FS × Res Unit :=
  if (lookupN fs.files p).isSome then (fs, .err .alreadyExists)
  else
    match parentOf p with
    | some q =>
      match get_dir_writable fs q with
      | .ok _ => ({ fs with files := (p, n) :: fs.files }, .ok ())
      | .err e => (fs, .err e)
    | none => ({ fs with files := (p, n) :: fs.files }, .ok ())

/-- `Registry::remove`: drop the map entry, returning the node. -/
def removeN (fs : FS) (p : FsPath) : FS × Res Node :=
  match lookupN fs.files p with
  | some n => ({ fs with files := fs.files.filter (fun e => decide (e.1 ≠ p)) }, .ok n)
  | none => (fs, .err .notFound)

/-- `Registry::descendants`: every entry strictly below `p`, with its mode
word. -/
def descendants (fs : FS) (p : FsPath) : List (FsPath × Nat) :=
  (fs.files.filter (fun e => isPre p e.1 && decide (e.1 ≠ p))).map
    (fun e => (e.1, nodeMode e.2))

/-- `Registry::children`: the keys whose parent is `p`. -/
def childrenKeys (fs : FS) (p : FsPath) : List FsPath :=
  (fs.files.map Prod.fst).filter (fun k => decide (parentOf k = some p))

/-- `Registry::is_dir`. -/
def is_dir (fs : FS) (p : FsPath) : Bool :=
  match lookupN fs.files p with
  | some (.dir _) => true
  | _ => false

/-- `Registry::is_file`. -/
def is_file (fs : FS) (p : FsPath) : Bool :=
  match lookupN fs.files p with
  | some (.file _ _) => true
  | _ => false

/-- `Registry::create_dir`. -/
def create_dir (fs : FS) (p : FsPath) : FS × Res Unit :=
  insertN fs p (.dir 0o644)

/-- `Registry::create_dir_all`.  The Rust recursion first tries
`create_dir`, recurses on the parent on `NotFound`, then retries the full
path; the retry is not structurally decreasing, so fuel bounds it (the
`path == ""` guard is unreachable here because the facade only passes
absolute paths). -/
def create_dir_all : Nat → FS → FsPath → FS × Res Unit
  | 0, fs, _ => (fs, .err .outOfFuel)
  | fuel + 1, fs, p =>
    match create_dir fs p with
    | (fs1, .ok _) => (fs1, .ok ())
    | (fs1, .err e) =>
      if e = .notFound then
        match parentOf p with
        | some q =>
          match create_dir_all fuel fs1 q with
          | (fs2, .ok _) => create_dir_all fuel fs2 p
          | r => r
        | none => (fs1, .err .other)
      else if is_dir fs1 p then (fs1, .ok ())
      else (fs1, .err e)

/-- `Registry::remove_dir`: only an empty directory may be removed. -/
def remove_dir (fs : FS) (p : FsPath) : FS × Res Unit :=
  match get_dir fs p with
  | .ok _ =>
    if descendants fs p = [] then thenDo (removeN fs p) (fun fs1 _ => (fs1, .ok ()))
    else (fs, .err .other)
  | .err e => (fs, .err e)

/-- The removal loop of `Registry::remove_dir_all`. -/
def removeList : FS → List FsPath → FS × Res Unit
  | fs, [] => (fs, .ok ())
  | fs, c :: cs =>
    match removeN fs c with
    | (fs1, .ok _) => removeList fs1 cs
    | (fs1, .err e) => (fs1, .err e)

/-- `Registry::remove_dir_all`: a writable target, a full-tree readability
pre-check over all descendants, then removal of the descendants and the
target. -/
def remove_dir_all (fs : FS) (p : FsPath) : FS × Res Unit :=
  match get_dir_writable fs p with
  | .ok _ =>
    let ds := descendants fs p
    if ds.all (fun d => decide (d.2 &&& 0o444 ≠ 0)) then
      thenDo (removeList fs (ds.map Prod.fst)) (fun fs1 _ =>
        thenDo (removeN fs1 p) (fun fs2 _ => (fs2, .ok ())))
    else (fs, .err .permissionDenied)
  | .err e => (fs, .err e)

/-- `File::new` followed by `Registry::insert` (`Registry::create_file`):
allocate a fresh contents cell, then insert the file node with the default
mode.  The cell is allocated before the insert checks run, as in the
source; a cell orphaned by a failing insert is simply never referenced. -/
def create_file (fs : FS) (p : FsPath) (buf : List Nat) : FS × Res Unit :=
  insertN { fs with heap := fs.heap ++ [buf] } p (.file fs.heap.length 0o644)

/-- `Registry::write_file`: replace the contents inside the existing cell
of a writable file, or create the file if the path is absent. -/
def write_file (fs : FS) (p : FsPath) (buf : List Nat) : FS × Res Unit :=
  match get_file_writable fs p with
  | .ok fi => ({ fs with heap := heapSet fs.heap fi.1 buf }, .ok ())
  | .err e => if e = .notFound then create_file fs p buf else (fs, .err e)

/-- `Registry::overwrite_file`: replace the contents inside the existing
cell of a writable file; the path must exist. -/
def overwrite_file (fs : FS) (p : FsPath) (buf : List Nat) : FS × Res Unit :=
  match get_file_writable fs p with
  | .ok fi => ({ fs with heap := heapSet fs.heap fi.1 buf }, .ok ())
  | .err e => (fs, .err e)

/-- `Registry::read_file` (via `get_contents_if_readable`). -/
def read_file (fs : FS) (p : FsPath) : Res (List Nat) :=
  match get_file fs p with
  | .ok fi => if canRead fi.2 then .ok (heapGet fs.heap fi.1) else .err .permissionDenied
  | .err e => .err e

/-- `Registry::remove_file`. -/
def remove_file (fs : FS) (p : FsPath) : FS × Res Unit :=
  match get_file fs p with
  | .ok _ => thenDo (removeN fs p) (fun fs1 _ => (fs1, .ok ()))
  | .err e => (fs, .err e)

/-- `Registry::copy_file`: read the full source contents, write them to the
destination; a generic read error (directory as source) becomes
`InvalidInput`, all other errors propagate unchanged. -/
def copy_file (fs : FS) (f t : FsPath) : FS × Res Unit :=
  match read_file fs f with
  | .ok buf => write_file fs t buf
  | .err e => if e = .other then (fs, .err .invalidInput) else (fs, .err e)

/-- `Registry::rename_path`: remove the entry under `f`, insert the node
under `t`. -/
def rename_path (fs : FS) (f t : FsPath) : FS × Res Unit :=
  thenDo (removeN fs f) (fun fs1 n => insertN fs1 t n)

/-- The child loop of `Registry::move_dir`, abstracted over the recursive
`rename` call: each child is renamed to the destination joined with the
child's stem. -/
def moveChildrenAux (ren : FS → FsPath → FsPath → FS × Res Unit) (f t : FsPath) :
    List FsPath → FS → FS × Res Unit
  | [], fs => (fs, .ok ())
  | c :: cs, fs =>
    let stem := if isPre f c then c.drop f.length else c
    match ren fs c (t ++ stem) with
    | (fs1, .ok _) => moveChildrenAux ren f t cs fs1
    | r => r

/-- `Registry::move_dir`: re-key the directory itself, then recursively
rename each child (the child list is computed after the directory has been
re-keyed, as in the source). -/
def move_dirAux (ren : FS → FsPath → FsPath → FS × Res Unit) (fs : FS) (f t : FsPath) :
    FS × Res Unit :=
  thenDo (rename_path fs f t) (fun fs1 _ => moveChildrenAux ren f t (childrenKeys fs1 f) fs1)

/-- `Registry::rename`: case analysis on the (source, destination) node
pair.  The recursion through `move_dir` does not terminate on some inputs,
so it is bounded by fuel. -/
def rename : Nat → FS → FsPath → FsPath → FS × Res Unit
  | 0, fs, _, _ => (fs, .err .outOfFuel)
  | fuel + 1, fs, f, t =>
    match lookupN fs.files f, lookupN fs.files t with
    | some (.file _ _), some (.file _ _) =>
      thenDo (remove_file fs t) (fun fs1 _ => rename_path fs1 f t)
    | some (.file _ _), none => rename_path fs f t
    | some (.dir _), some (.dir _) =>
      if descendants fs t = [] then
        thenDo (removeN fs t) (fun fs1 _ => move_dirAux (rename fuel) fs1 f t)
      else (fs, .err .other)
    | some (.file _ _), some (.dir _) => (fs, .err .other)
    | some (.dir _), some (.file _ _) => (fs, .err .other)
    | some (.dir _), none => move_dirAux (rename fuel) fs f t
    | none, _ => (fs, .err .notFound)

/-- Mode update used by `set_mode`/`set_readonly` (writes through the
node's mode cell). -/
def setNodeMode : Node → Nat → Node
  | .file i _, m => .file i m
  | .dir _, m => .dir m

/-- `SharedMode::make_readonly`: clear or set the write bits.  On a `u32`
mode word `mode &= !0o222` equals subtracting the masked bits. -/
def applyReadonly (m : Nat) (ro : Bool) : Nat :=
  if ro then m - (m &&& 0o222) else m ||| 0o222

/-- `Registry::set_mode`. -/
def set_mode (fs : FS) (p : FsPath) (m : Nat) : FS × Res Unit :=
  match lookupN fs.files p with
  | some _ =>
    ({ fs with files := fs.files.map (fun e => if e.1 = p then (e.1, setNodeMode e.2 m) else e) },
      .ok ())
  | none => (fs, .err .notFound)

/-- `Registry::set_readonly`. -/
def set_readonly (fs : FS) (p : FsPath) (ro : Bool) : FS × Res Unit :=
  match lookupN fs.files p with
  | some _ =>
    let upd := fun (e : FsPath × Node) =>
      if e.1 = p then (e.1, setNodeMode e.2 (applyReadonly (nodeMode e.2) ro)) else e
    ({ fs with files := fs.files.map upd }, .ok ())
  | none => (fs, .err .notFound)

/-- `Registry::current_dir`. -/
def current_dir (fs : FS) : Res FsPath :=
  match get_dir fs fs.cwd with
  | .ok _ => .ok fs.cwd
  | .err e => .err e

/-- `Registry::set_current_dir`. -/
def set_current_dir (fs : FS) (p : FsPath) : FS × Res Unit :=
  match get_dir fs p with
  | .ok _ => ({ fs with cwd := p }, .ok ())
  | .err e => (fs, .err e)

/-- One step of `Registry::canonicalize_path`: `PathBuf::pop` on `..`
(a no-op on the root), `PathBuf::push` otherwise. -/
def canonStep (acc : FsPath) (c : String) : FsPath :=
  if c = ".." then acc.dropLast else acc ++ [c]

/-- The component loop of `Registry::canonicalize_path`: every accumulated
path except the final one must resolve to an existing directory, the final
one must resolve to an existing entry of any kind. -/
def canonGo (fs : FS) (acc : FsPath) : List String → Res FsPath
  | [] => .ok acc
  | [c] =>
    let a := canonStep acc c
    match getN fs a with
    | .ok _ => .ok a
    | .err e => .err e
  | c :: cs =>
    let a := canonStep acc c
    match get_dir fs a with
    | .ok _ => canonGo fs a cs
    | .err e => .err e

/-- `Registry::canonicalize_path` on an absolute path.  `Path::iter` on an
absolute path yields the root marker first, which pushes the root and is
checked like any other component; the remaining components follow. -/
def canonicalize_path (fs : FS) (comps : List String) : Res FsPath :=
  match comps with
  | [] =>
    match getN fs [] with
    | .ok _ => .ok []
    | .err e => .err e
  | _ =>
    match get_dir fs [] with
    | .ok _ => canonGo fs [] comps
    | .err e => .err e

/-- A path as handed to the facade: absolute or relative to the working
directory, with its components (`..` components allowed).  The empty Rust
path is the relative path with no components. -/
structure InputPath where
  absolute : Bool
  comps : List String
deriving DecidableEq, Repr

/-- `to_absolute_path` in `src/fake/mod.rs`: relative paths are joined onto
the working directory; if the working directory cannot be resolved the root
is used. -/
def toAbsolute (fs : FS) (p : InputPath) : FsPath :=
  if p.absolute then p.comps
  else
    (match current_dir fs with
     | .ok c => c
     | .err _ => []) ++ p.comps

/-- `FakeFileSystem::canonicalize`: the empty path always fails `NotFound`;
otherwise the path is made absolute and the registry walk runs. -/
def facadeCanonicalize (fs : FS) (p : InputPath) : Res FsPath :=
  if p.absolute = false ∧ p.comps = [] then .err .notFound
  else canonicalize_path fs (toAbsolute fs p)

/-- `AccessMode` in `src/fake/mod.rs`. -/
inductive AccessMode where
  | read
  | write
deriving DecidableEq, Repr

/-- `FakeOpenFile`: the clone of the file's contents cell (its heap index),
the byte cursor, and the fixed access mode.  The cloned mode cell is not
modelled because no claimed property reads it through a handle. -/
structure FakeOpenFile where
  contentsId : Nat
  pos : Nat
  access : AccessMode
deriving DecidableEq, Repr

/-- `FakeOpenFile::new`: clone the cell, cursor at 0. -/
def FakeOpenFile.new (contentsId : Nat) (a : AccessMode) : FakeOpenFile :=
  ⟨contentsId, 0, a⟩

/-- `FakeFileSystem::open`: a read handle on an existing readable file. -/
def fopen (fs : FS) (p : FsPath) : Res FakeOpenFile :=
  match get_file_if_readable fs p with
  | .ok fi => .ok (FakeOpenFile.new fi.1 .read)
  | .err e => .err e

/-- `FakeFileSystem::create`: create-or-truncate via `write_file`, then a
write handle on the (now existing) file's cell. -/
def fcreate (fs : FS) (p : FsPath) : FS × Res FakeOpenFile :=
  match write_file fs p [] with
  | (fs1, .ok _) =>
    match get_file_if_writable fs1 p with
    | .ok fi => (fs1, .ok (FakeOpenFile.new fi.1 .write))
    | .err e => (fs1, .err e)
  | (fs1, .err e) => (fs1, .err e)

/-- `io::Read for FakeOpenFile`: read-access handles copy
`min(available, buf_len)` bytes from the cursor and advance it; a cursor at
or past end-of-content reads zero bytes.  The copied bytes are returned in
place of the caller's buffer. -/
def fread (h : Heap) (f : FakeOpenFile) (bufLen : Nat) :
    Heap × FakeOpenFile × Res (List Nat) :=
  if f.access ≠ .read then (h, f, .err .other)
  else
    let contents := heapGet h f.contentsId
    let len := if f.pos < contents.length then min (contents.length - f.pos) bufLen else 0
    (h, ⟨f.contentsId, f.pos + len, f.access⟩, .ok ((contents.drop f.pos).take len))

/-- `std::io::SeekFrom`. -/
inductive SeekFrom where
  | start (n : Nat)
  | current (off : Int)
  | fromEnd (off : Int)
deriving DecidableEq, Repr

/-- Reinterpret the low 64 bits of an unsigned value as a signed 64-bit
value (`as i64` on a `u64`/`usize`). -/
def toI64 (n : Nat) : Int := ((n : Int) + 2 ^ 63) % 2 ^ 64 - 2 ^ 63

/-- Wrapping 64-bit signed addition result (overflow wraps, as in a release
build). -/
def wrap64 (x : Int) : Int := (x + 2 ^ 63) % 2 ^ 64 - 2 ^ 63

/-- The absolute seek target computed by `io::Seek for FakeOpenFile`:
`Start(pos)` is `pos as i64`, `End(offs)` is `len as i64 + offs`,
`Current(offs)` is `self.pos as i64 + offs`. -/
def seekTarget (h : Heap) (f : FakeOpenFile) (sf : SeekFrom) : Int :=
  match sf with
  | .start n => toI64 n
  | .fromEnd off => wrap64 (toI64 (heapGet h f.contentsId).length + off)
  | .current off => wrap64 (toI64 f.pos + off)

/-- `io::Seek for FakeOpenFile`: a non-negative target becomes the cursor
and is returned; a negative target fails `InvalidInput` with the cursor
unchanged.  Seeking never touches the contents. -/
def fseek (h : Heap) (f : FakeOpenFile) (sf : SeekFrom) :
    Heap × FakeOpenFile × Res Nat :=
  let pos := seekTarget h f sf
  if 0 ≤ pos then (h, ⟨f.contentsId, pos.toNat, f.access⟩, .ok pos.toNat)
  else (h, f, .err .invalidInput)

/-- `Vec::resize(n, 0)`: truncate or zero-extend to exactly `n` bytes. -/
def listResize (l : List Nat) (n : Nat) : List Nat :=
  if n ≤ l.length then l.take n else l ++ List.replicate (n - l.length) 0

/-- `io::Write for FakeOpenFile::write`: write-access handles zero-extend
the contents up to the cursor if it lies past the end, overwrite the
overlap in place, append the remainder, and advance the cursor by the full
buffer length, which is returned. -/
def fwrite (h : Heap) (f : FakeOpenFile) (buf : List Nat) :
    Heap × FakeOpenFile × Res Nat :=
  if f.access ≠ .write then (h, f, .err .other)
  else
    let contents := heapGet h f.contentsId
    let c1 := if f.pos > contents.length then listResize contents f.pos else contents
    let copyLen := min buf.length (c1.length - f.pos)
    let c2 := c1.take f.pos ++ buf.take copyLen ++ c1.drop (f.pos + copyLen)
    let c3 := c2 ++ buf.drop copyLen
    (heapSet h f.contentsId c3, ⟨f.contentsId, f.pos + buf.length, f.access⟩, .ok buf.length)

/-- `FileExt::set_len for FakeOpenFile`: write-access handles resize the
contents to exactly `size` bytes, with the cursor unmoved. -/
def fsetLen (h : Heap) (f : FakeOpenFile) (size : Nat) : Heap × Res Unit :=
  if f.access ≠ .write then (h, .err .other)
  else (heapSet h f.contentsId (listResize (heapGet h f.contentsId) size), .ok ())

/-- A public registry-mutating operation, for stating state invariants
(`rename` and `create_dir_all` carry their fuel). -/
inductive Op where
  | opCreateDir (p : FsPath)
  | opCreateDirAll (fuel : Nat) (p : FsPath)
  | opRemoveDir (p : FsPath)
  | opRemoveDirAll (p : FsPath)
  | opCreateFile (p : FsPath) (buf : List Nat)
  | opWriteFile (p : FsPath) (buf : List Nat)
  | opOverwriteFile (p : FsPath) (buf : List Nat)
  | opRemoveFile (p : FsPath)
  | opCopyFile (f t : FsPath)
  | opRename (fuel : Nat) (f t : FsPath)
  | opSetReadonly (p : FsPath) (ro : Bool)
  | opSetMode (p : FsPath) (m : Nat)
  | opSetCurrentDir (p : FsPath)
deriving DecidableEq, Repr

/-- The state after running one public mutating operation (the state is
kept also when the operation reports an error, as in the source). -/
def applyOp (fs : FS) : Op → FS
  | .opCreateDir p => (create_dir fs p).1
  | .opCreateDirAll fuel p => (create_dir_all fuel fs p).1
  | .opRemoveDir p => (remove_dir fs p).1
  | .opRemoveDirAll p => (remove_dir_all fs p).1
  | .opCreateFile p buf => (create_file fs p buf).1
  | .opWriteFile p buf => (write_file fs p buf).1
  | .opOverwriteFile p buf => (overwrite_file fs p buf).1
  | .opRemoveFile p => (remove_file fs p).1
  | .opCopyFile f t => (copy_file fs f t).1
  | .opRename fuel f t => (rename fuel fs f t).1
  | .opSetReadonly p ro => (set_readonly fs p ro).1
  | .opSetMode p m => (set_mode fs p m).1
  | .opSetCurrentDir p => (set_current_dir fs p).1

/-- Operations that do not target the root with a directory removal or a
rename source. -/
def allowedOp : Op → Bool
  | .opRemoveDir p => decide (p ≠ [])
  | .opRemoveDirAll p => decide (p ≠ [])
  | .opRename _ f _ => decide (f ≠ [])
  | _ => true

/-- The root entry exists and is a directory. -/
def isRootDir (fs : FS) : Bool :=
  match lookupN fs.files [] with
  | some (.dir _) => true
  | _ => false

/-- Example registry: the root plus a file at `/f` whose cell 0 holds
`[1, 2, 3]`. -/
def exFileFS : FS := ⟨[[1, 2, 3]], [], [([], .dir 0o644), (["f"], .file 0 0o644)]⟩

/-- Example registry: the root, a directory `/from`, and a file
`/from/child` whose cell 0 holds `[120]`. -/
def exTreeFS : FS :=
  ⟨[[120]], [],
    [([], .dir 0o644), (["from"], .dir 0o644), (["from", "child"], .file 0 0o644)]⟩

/-- Example registry: the root plus a directory `/d` with no write bits and
a file `/d/s` with no read bits, for the permission checks. -/
def exPermFS : FS :=
  ⟨[[7]], [],
    [([], .dir 0o644), (["d"], .dir 0o444), (["d", "s"], .file 0 0o200)]⟩

/-- Claim-side description of the write padding: the content zero-extended
up to the cursor when the cursor lies past the end. -/
def zeroExtend (l : List Nat) (c : Nat) : List Nat :=
  if l.length < c then l ++ List.replicate (c - l.length) 0 else l

/-- Claim-side canonicalization walk, following the amended claim words:
pop on `..` (clamped at the root); every non-final accumulated path must be
present (`NotFound` when absent) and a directory (the generic error when it
is a file); the final accumulated path must be present as any kind of
entry. -/
def canonGoClaim (fs : FS) (acc : FsPath) : List String → Res FsPath
  | [] => .ok acc
  | [c] =>
    let a := canonStep acc c
    match lookupN fs.files a with
    | some _ => .ok a
    | none => .err .notFound
  | c :: cs =>
    let a := canonStep acc c
    match lookupN fs.files a with
    | none => .err .notFound
    | some (.file _ _) => .err .other
    | some (.dir _) => canonGoClaim fs a cs

/-- Claim-side canonicalization of an absolute path: the root marker is the
first walked component. -/
def canonicalizeClaim (fs : FS) (comps : List String) : Res FsPath :=
  match comps with
  | [] =>
    match lookupN fs.files [] with
    | some _ => .ok []
    | none => .err .notFound
  | _ =>
    match lookupN fs.files [] with
    | none => .err .notFound
    | some (.file _ _) => .err .other
    | some (.dir _) => canonGoClaim fs [] comps

/-- Claim-side description of the map after a successful directory rename:
everything under `f` is gone, the subtree reappears under `t` (one path
re-key per descendant, substituting the `f` path-prefix with `t`), and all
other entries are untouched. -/
def rekeyLookup (fs0 : FS) (f t k : FsPath) : Option Node :=
  if isPre f k then none
  else if isPre t k then lookupN fs0.files (f ++ k.drop t.length)
  else lookupN fs0.files k

/-- The entry at `p` exists and is a directory. -/
def isDirAtB (fs : FS) (p : FsPath) : Bool :=
  match lookupN fs.files p with
  | some (.dir _) => true
  | _ => false

/-- The induction hypothesis of the rename re-key proof at a given fuel:
a successful `rename` from `f` to `t` — with `f` present, nothing at or
below `t`, `f` and `t` prefix-incomparable, every proper descendant of `f`
having its parent present as a directory, and unique keys — produces
exactly the re-keyed map. -/
def RenameRekeyIH (fuel : Nat) : Prop :=
  ∀ (fs : FS) (f t : FsPath) (n : Node),
    lookupN fs.files f = some n →
    (∀ k, isPre t k = true → lookupN fs.files k = none) →
    isPre t f = false → isPre f t = false →
    (∀ k nk, lookupN fs.files k = some nk → isPre f k = true → k ≠ f →
      ∃ md, lookupN fs.files k.dropLast = some (.dir md)) →
    (fs.files.map Prod.fst).Nodup →
    ∀ fs2, rename fuel fs f t = (fs2, .ok ()) →
    ∀ k, lookupN fs2.files k = rekeyLookup fs f t k

/-! Helper lemmas about lookup, removal and path arithmetic. -/

theorem lookupN_filter_ne {es : List (FsPath × Node)} {p q : FsPath} (h : q ≠ p) :
    lookupN (es.filter fun e => decide (e.1 ≠ p)) q = lookupN es q := by
  induction es with
  | nil => rfl
  | cons e es ih =>
    rw [List.filter_cons]
    by_cases he : e.1 = p
    · have hd : (decide (e.1 ≠ p)) = false := by simp [he]
      rw [hd]
      have hne : e.1 ≠ q := fun hq => h (hq ▸ he)
      simp only [Bool.false_eq_true, if_false, lookupN, if_neg hne]
      exact ih
    · have hd : (decide (e.1 ≠ p)) = true := by simp [he]
      rw [hd]
      simp only [if_true, lookupN]
      by_cases hq : e.1 = q
      · rw [if_pos hq, if_pos hq]
      · rw [if_neg hq, if_neg hq]
        exact ih

theorem lookupN_filter_self {es : List (FsPath × Node)} {p : FsPath} :
    lookupN (es.filter fun e => decide (e.1 ≠ p)) p = none := by
  induction es with
  | nil => rfl
  | cons e es ih =>
    rw [List.filter_cons]
    by_cases he : e.1 = p
    · have hd : (decide (e.1 ≠ p)) = false := by simp [he]
      rw [hd]
      simpa using ih
    · have hd : (decide (e.1 ≠ p)) = true := by simp [he]
      rw [hd]
      simp only [if_true, lookupN, if_neg he]
      exact ih

/-! ### Claim C10: rename with identical source and destination -/

/-- C10: for a file at `p`, `rename(p, p)` takes the file-onto-file branch,
whose destination removal deletes the source itself; the following re-key
then fails `NotFound`, so the call reports `NotFound` and the file at `p`
has been removed from the registry. -/
theorem c10_rename_self (fuel : Nat) (fs : FS) (p : FsPath) (i m : Nat)
    (h : lookupN fs.files p = some (.file i m)) :
    (rename (fuel + 1) fs p p).2 = .err .notFound ∧
      lookupN (rename (fuel + 1) fs p p).1.files p = none := by
  have hrm : remove_file fs p =
      ({ fs with files := fs.files.filter fun e => decide (e.1 ≠ p) }, .ok ()) := by
    simp [remove_file, get_file, getN, h, removeN, thenDo]
  have hren : rename (fuel + 1) fs p p =
      ({ fs with files := fs.files.filter fun e => decide (e.1 ≠ p) }, .err .notFound) := by
    rw [rename, h]
    simp only [hrm, thenDo, rename_path, removeN]
    rw [lookupN_filter_self]
  rw [hren]
  exact ⟨rfl, lookupN_filter_self⟩

/-- C10 witness: the concrete registry with `/f` present. -/
theorem c10_witness :
    (rename 1 exFileFS ["f"] ["f"]).2 = .err .notFound ∧
      lookupN (rename 1 exFileFS ["f"] ["f"]).1.files ["f"] = none :=
  c10_rename_self 0 exFileFS ["f"] 0 0o644 (by decide)

/-! ### Claim C4: a read handle survives `remove_file` -/

/-- C4: opening a read handle on a readable file at `p` clones the file's
contents cell; `remove_file p` then succeeds, deletes only the map entry
and leaves the heap untouched, and reading the still-open handle to the end
yields exactly the bytes `p` held when the handle was opened. -/
theorem c4_handle_survives_remove (fs : FS) (p : FsPath) (i m n : Nat)
    (h : lookupN fs.files p = some (.file i m)) (hr : canRead m = true)
    (hn : (heapGet fs.heap i).length ≤ n) :
    fopen fs p = .ok ⟨i, 0, .read⟩ ∧
      (remove_file fs p).2 = .ok () ∧
      lookupN (remove_file fs p).1.files p = none ∧
      (remove_file fs p).1.heap = fs.heap ∧
      fread (remove_file fs p).1.heap ⟨i, 0, .read⟩ n =
        (fs.heap, ⟨i, (heapGet fs.heap i).length, .read⟩, .ok (heapGet fs.heap i)) := by
  have hrm : remove_file fs p =
      ({ fs with files := fs.files.filter fun e => decide (e.1 ≠ p) }, .ok ()) := by
    simp [remove_file, get_file, getN, h, removeN, thenDo]
  refine ⟨?_, ?_, ?_, ?_, ?_⟩
  · simp [fopen, get_file_if_readable, get_file, getN, h, hr, FakeOpenFile.new]
  · rw [hrm]
  · rw [hrm]
    exact lookupN_filter_self
  · rw [hrm]
  · rw [hrm]
    simp only [fread]
    by_cases hz : 0 < (heapGet fs.heap i).length
    · simp [hz, Nat.min_eq_left hn, List.take_length]
    · have h0 : (heapGet fs.heap i).length = 0 := Nat.eq_zero_of_not_pos hz
      have hnil : heapGet fs.heap i = [] := List.eq_nil_of_length_eq_zero h0
      simp [hz, hnil]

/-- C4 witness: the concrete registry with `/f` holding `[1, 2, 3]`. -/
theorem c4_witness :
    fopen exFileFS ["f"] = .ok ⟨0, 0, .read⟩ ∧
      (remove_file exFileFS ["f"]).2 = .ok () ∧
      lookupN (remove_file exFileFS ["f"]).1.files ["f"] = none ∧
      (remove_file exFileFS ["f"]).1.heap = exFileFS.heap ∧
      fread (remove_file exFileFS ["f"]).1.heap ⟨0, 0, .read⟩ 8 =
        (exFileFS.heap, ⟨0, (heapGet exFileFS.heap 0).length, .read⟩,
          .ok (heapGet exFileFS.heap 0)) :=
  c4_handle_survives_remove exFileFS ["f"] 0 0o644 8 (by decide) (by decide) (by decide)

theorem heapGet_set_self {h : Heap} {i : Nat} {v : List Nat} (hi : i < h.length) :
    heapGet (heapSet h i v) i = v := by
  induction h generalizing i with
  | nil => exact absurd hi (by simp)
  | cons a h ih =>
    cases i with
    | zero => rfl
    | succ j =>
      have hj : j < h.length := Nat.lt_of_succ_lt_succ hi
      simpa [heapGet, heapSet, List.set] using ih hj

theorem fread_full (h : Heap) (i n : Nat) (hn : (heapGet h i).length ≤ n) :
    fread h ⟨i, 0, .read⟩ n =
      (h, ⟨i, (heapGet h i).length, .read⟩, .ok (heapGet h i)) := by
  simp only [fread]
  by_cases hz : 0 < (heapGet h i).length
  · simp [hz, Nat.min_eq_left hn, List.take_length]
  · have h0 : (heapGet h i).length = 0 := Nat.eq_zero_of_not_pos hz
    have hnil : heapGet h i = [] := List.eq_nil_of_length_eq_zero h0
    simp [hz, hnil]

/-! ### Claim C2: overwriting a path while a handle is open -/

/-- C2 counterexample: on the concrete registry with `/f` holding
`[1, 2, 3]`, a handle opened on `/f` reads the **new** bytes `[9, 9]` after
`overwrite_file`, not the old bytes `[1, 2, 3]` that the claim predicts:
the registry entry keeps the same shared cell, which is mutated in place. -/
theorem c2_counterexample :
    fopen exFileFS ["f"] = .ok ⟨0, 0, .read⟩ ∧
      (overwrite_file exFileFS ["f"] [9, 9]).2 = .ok () ∧
      (fread (overwrite_file exFileFS ["f"] [9, 9]).1.heap ⟨0, 0, .read⟩ 8).2.2 =
        .ok [9, 9] ∧
      (Res.ok [9, 9] : Res (List Nat)) ≠ .ok [1, 2, 3] := by
  decide

/-- C2 amended: `write_file`/`overwrite_file` on an existing writable file
replace the contents **inside the same shared cell**; the registry entry
keeps its cell id, and a previously opened handle on that cell observes the
new bytes when it reads. -/
theorem c2_amended (fs : FS) (p : FsPath) (i m : Nat) (buf : List Nat)
    (h : lookupN fs.files p = some (.file i m)) (hw : canWrite m = true) :
    overwrite_file fs p buf = ({ fs with heap := heapSet fs.heap i buf }, .ok ()) ∧
      write_file fs p buf = ({ fs with heap := heapSet fs.heap i buf }, .ok ()) ∧
      lookupN ({ fs with heap := heapSet fs.heap i buf } : FS).files p = some (.file i m) ∧
      (i < fs.heap.length → ∀ n, buf.length ≤ n →
        fread (heapSet fs.heap i buf) ⟨i, 0, .read⟩ n =
          (heapSet fs.heap i buf, ⟨i, buf.length, .read⟩, .ok buf)) := by
  refine ⟨?_, ?_, h, ?_⟩
  · simp [overwrite_file, get_file_writable, getN, h, hw]
  · simp [write_file, get_file_writable, getN, h, hw]
  · intro hi n hn
    have hc : heapGet (heapSet fs.heap i buf) i = buf := heapGet_set_self hi
    have := fread_full (heapSet fs.heap i buf) i n (by rw [hc]; exact hn)
    rwa [hc] at this

/-- C2 amended witness: the concrete registry with `/f` holding
`[1, 2, 3]`, overwritten with `[9, 9]`. -/
theorem c2_witness :
    overwrite_file exFileFS ["f"] [9, 9] =
        ({ exFileFS with heap := heapSet exFileFS.heap 0 [9, 9] }, .ok ()) ∧
      write_file exFileFS ["f"] [9, 9] =
        ({ exFileFS with heap := heapSet exFileFS.heap 0 [9, 9] }, .ok ()) ∧
      lookupN ({ exFileFS with heap := heapSet exFileFS.heap 0 [9, 9] } : FS).files ["f"] =
        some (.file 0 0o644) ∧
      (0 < exFileFS.heap.length → ∀ n, [9, 9].length ≤ n →
        fread (heapSet exFileFS.heap 0 [9, 9]) ⟨0, 0, .read⟩ n =
          (heapSet exFileFS.heap 0 [9, 9], ⟨0, [9, 9].length, .read⟩, .ok [9, 9])) :=
  c2_amended exFileFS ["f"] 0 0o644 [9, 9] (by decide) (by decide)

/-! ### Claim C6: handle writes are applied as a whole -/

/-- C6: a write through a write-mode handle with cursor `c` over content of
length `L` first zero-extends the content to length `c` when `c > L`, then
overwrites the overlap in place and appends the remainder — overall the
new content is the padded content with the slice starting at `c` replaced
by `buf` — advances the cursor by exactly `buf.length`, and returns
`buf.length`. -/
theorem c6_write_whole (h : Heap) (f : FakeOpenFile) (buf : List Nat)
    (hw : f.access = .write) :
    fwrite h f buf =
      (heapSet h f.contentsId
          ((zeroExtend (heapGet h f.contentsId) f.pos).take f.pos ++ buf ++
            (zeroExtend (heapGet h f.contentsId) f.pos).drop (f.pos + buf.length)),
        ⟨f.contentsId, f.pos + buf.length, f.access⟩, .ok buf.length) := by
  have hacc : ¬f.access ≠ .write := by simp [hw]
  simp only [fwrite, hacc, if_false]
  have hc1 : (if f.pos > (heapGet h f.contentsId).length then
      listResize (heapGet h f.contentsId) f.pos else heapGet h f.contentsId) =
      zeroExtend (heapGet h f.contentsId) f.pos := by
    by_cases hgt : (heapGet h f.contentsId).length < f.pos
    · have : ¬f.pos ≤ (heapGet h f.contentsId).length := Nat.not_le_of_lt hgt
      simp [listResize, zeroExtend, hgt, this]
    · simp [zeroExtend, hgt, Nat.not_lt.mpr (Nat.le_of_not_lt hgt)]
  rw [hc1]
  set c1 := zeroExtend (heapGet h f.contentsId) f.pos with hc1def
  have hlen : f.pos ≤ c1.length := by
    rw [hc1def]
    by_cases hgt : (heapGet h f.contentsId).length < f.pos
    · simp [zeroExtend, hgt]
      omega
    · simp [zeroExtend, hgt]
      omega
  by_cases hle : buf.length ≤ c1.length - f.pos
  · have hcl : min buf.length (c1.length - f.pos) = buf.length := Nat.min_eq_left hle
    rw [hcl, List.take_length, List.drop_length, List.append_nil]
  · have hcl : min buf.length (c1.length - f.pos) = c1.length - f.pos :=
      Nat.min_eq_right (Nat.le_of_not_le hle)
    rw [hcl]
    have hd1 : c1.drop (f.pos + (c1.length - f.pos)) = [] := by
      have : c1.length ≤ f.pos + (c1.length - f.pos) := by omega
      exact List.drop_eq_nil_of_le this
    have hd2 : c1.drop (f.pos + buf.length) = [] := by
      have : c1.length ≤ f.pos + buf.length := by omega
      exact List.drop_eq_nil_of_le this
    rw [hd1, hd2, List.append_nil, List.append_nil, List.append_assoc,
      List.take_append_drop]

/-- C6 witness: cursor 6 over the 3-byte content `[1, 2, 3]` of cell 0,
writing `[7, 8]`. -/
theorem c6_witness :
    fwrite [[1, 2, 3]] ⟨0, 6, .write⟩ [7, 8] =
      ([[1, 2, 3, 0, 0, 0, 7, 8]], ⟨0, 8, .write⟩, .ok 2) := by
  have h := c6_write_whole [[1, 2, 3]] ⟨0, 6, .write⟩ [7, 8] rfl
  rw [h]
  decide

/-! ### Claim C7: seek targets -/

/-- C7 counterexample: `Start(2^63)` is a valid `u64` offset, but
`pos as i64` reinterprets it as a negative signed value, so the seek fails
`InvalidInput` with the cursor unchanged — refuting the claim that every
`u64` offset makes `seek(Start(offset))` succeed. -/
theorem c7_counterexample :
    fseek [] ⟨0, 0, .read⟩ (.start (2 ^ 63)) = ([], ⟨0, 0, .read⟩, .err .invalidInput) ∧
      2 ^ 63 < 2 ^ 64 := by
  decide

/-- C7 amended: the absolute target is computed from the 64-bit signed
reinterpretation of the operands (`Start(offset)` is `offset as i64`, so
offsets at or above `2^63` wrap negative); a negative target fails
`InvalidInput` with the cursor and contents unchanged; a non-negative
target becomes the cursor unconditionally without touching the contents;
in particular every `Start(offset)` with `offset < 2^63` succeeds and sets
the cursor to `offset`. -/
theorem c7_amended :
    (∀ (h : Heap) (f : FakeOpenFile) (n : Nat), n < 2 ^ 63 →
      fseek h f (.start n) = (h, ⟨f.contentsId, n, f.access⟩, .ok n)) ∧
      (∀ (h : Heap) (f : FakeOpenFile) (sf : SeekFrom), seekTarget h f sf < 0 →
        fseek h f sf = (h, f, .err .invalidInput)) ∧
      (∀ (h : Heap) (f : FakeOpenFile) (sf : SeekFrom), 0 ≤ seekTarget h f sf →
        fseek h f sf =
          (h, ⟨f.contentsId, (seekTarget h f sf).toNat, f.access⟩,
            .ok (seekTarget h f sf).toNat)) := by
  refine ⟨?_, ?_, ?_⟩
  · intro h f n hn
    have htgt : seekTarget h f (.start n) = (n : Int) := by
      have h1 : (0 : Int) ≤ (n : Int) + 2 ^ 63 := by positivity
      have h2 : (n : Int) + 2 ^ 63 < 2 ^ 64 := by
        have : (n : Int) < 2 ^ 63 := by exact_mod_cast hn
        omega
      show ((n : Int) + 2 ^ 63) % 2 ^ 64 - 2 ^ 63 = (n : Int)
      rw [Int.emod_eq_of_lt h1 h2]
      omega
    simp [fseek, htgt]
  · intro h f sf hneg
    simp [fseek, Int.not_le.mpr hneg]
  · intro h f sf hpos
    simp [fseek, hpos]

/-- C7 amended witness: seeking to `Start(5)` on a 2-byte cell. -/
theorem c7_witness :
    fseek [[1, 2]] ⟨0, 3, .read⟩ (.start 5) = ([[1, 2]], ⟨0, 5, .read⟩, .ok 5) :=
  c7_amended.1 [[1, 2]] ⟨0, 3, .read⟩ 5 (by decide)

/-! ### Claim C9: copy_file error taxonomy -/

/-- C9: `copy_file` reads the source in full and hands the bytes to
`write_file`; a directory as source surfaces as `InvalidInput`, while a
directory as destination surfaces as the generic error kind (the asymmetry
is preserved), and `NotFound` / `PermissionDenied` from the source
propagate unchanged (destination-side errors propagate through the
`write_file` equation). -/
theorem c9_copy_file :
    (∀ (fs : FS) (f t : FsPath) (m : Nat), lookupN fs.files f = some (.dir m) →
      copy_file fs f t = (fs, .err .invalidInput)) ∧
      (∀ (fs : FS) (f t : FsPath) (buf : List Nat), read_file fs f = .ok buf →
        copy_file fs f t = write_file fs t buf) ∧
      (∀ (fs : FS) (f t : FsPath), lookupN fs.files f = none →
        copy_file fs f t = (fs, .err .notFound)) ∧
      (∀ (fs : FS) (f t : FsPath) (i m : Nat), lookupN fs.files f = some (.file i m) →
        canRead m = false → copy_file fs f t = (fs, .err .permissionDenied)) ∧
      (∀ (fs : FS) (f t : FsPath) (i m m2 : Nat), lookupN fs.files f = some (.file i m) →
        canRead m = true → lookupN fs.files t = some (.dir m2) →
        (copy_file fs f t).2 = .err .other) := by
  refine ⟨?_, ?_, ?_, ?_, ?_⟩
  · intro fs f t m h
    simp [copy_file, read_file, get_file, getN, h]
  · intro fs f t buf h
    simp [copy_file, h]
  · intro fs f t h
    simp [copy_file, read_file, get_file, getN, h]
  · intro fs f t i m h hr
    simp [copy_file, read_file, get_file, getN, h, hr]
  · intro fs f t i m m2 h hr ht
    simp [copy_file, read_file, get_file, getN, h, hr, write_file, get_file_writable, ht]

/-- C9 witness: copying the directory `/from` surfaces `InvalidInput`. -/
theorem c9_witness :
    copy_file exTreeFS ["from"] ["x"] = (exTreeFS, .err .invalidInput) :=
  c9_copy_file.1 exTreeFS ["from"] ["x"] 0o644 (by decide)

theorem lookupN_isSome_of_mem {es : List (FsPath × Node)} {e : FsPath × Node}
    (h : e ∈ es) : (lookupN es e.1).isSome := by
  induction es with
  | nil => cases h
  | cons a es ih =>
    by_cases ha : a.1 = e.1
    · simp [lookupN, ha]
    · rcases List.mem_cons.mp h with rfl | hm
      · exact absurd rfl ha
      · simpa [lookupN, ha] using ih hm

theorem removeList_spec : ∀ (ks : List FsPath) (fs : FS), ks.Nodup →
    (∀ k ∈ ks, (lookupN fs.files k).isSome) →
    (removeList fs ks).2 = .ok () ∧
      (removeList fs ks).1.heap = fs.heap ∧
      ∀ q, q ∉ ks → lookupN (removeList fs ks).1.files q = lookupN fs.files q := by
  intro ks
  induction ks with
  | nil =>
    intro fs _ _
    exact ⟨rfl, rfl, fun q _ => rfl⟩
  | cons k ks ih =>
    intro fs hnd hsome
    have hk : (lookupN fs.files k).isSome := hsome k (List.mem_cons_self k ks)
    obtain ⟨n, hn⟩ := Option.isSome_iff_exists.mp hk
    have hstep : removeN fs k =
        ({ fs with files := fs.files.filter fun e => decide (e.1 ≠ k) }, .ok n) := by
      simp [removeN, hn]
    have hrl : removeList fs (k :: ks) =
        removeList { fs with files := fs.files.filter fun e => decide (e.1 ≠ k) } ks := by
      simp [removeList, hstep]
    set fs1 : FS := { fs with files := fs.files.filter fun e => decide (e.1 ≠ k) } with hfs1
    have hnd' : ks.Nodup := hnd.of_cons
    have hknotin : k ∉ ks := (List.nodup_cons.mp hnd).1
    have hsome' : ∀ k' ∈ ks, (lookupN fs1.files k').isSome := by
      intro k' hk'
      have hne : k' ≠ k := fun hkk => hknotin (hkk ▸ hk')
      rw [hfs1]
      show (lookupN (fs.files.filter fun e => decide (e.1 ≠ k)) k').isSome
      rw [lookupN_filter_ne hne]
      exact hsome k' (List.mem_cons_of_mem k hk')
    obtain ⟨hok, hheap, hlk⟩ := ih fs1 hnd' hsome'
    refine ⟨by rw [hrl]; exact hok, by rw [hrl]; exact hheap, ?_⟩
    intro q hq
    have hqk : q ≠ k := fun hqk => hq (hqk ▸ List.mem_cons_self k ks)
    have hqks : q ∉ ks := fun hm => hq (List.mem_cons_of_mem k hm)
    rw [hrl, hlk q hqks, hfs1]
    show lookupN (fs.files.filter fun e => decide (e.1 ≠ k)) q = lookupN fs.files q
    exact lookupN_filter_ne hqk

theorem thenDo_eq_of_ok {α β : Type} {x : FS × Res α} {f : FS → α → FS × Res β} {a : α}
    (h : x.2 = .ok a) : thenDo x f = f x.1 a := by
  obtain ⟨fs1, r⟩ := x
  cases r with
  | ok b =>
    cases h
    rfl
  | err e => cases h

theorem get_dir_writable_ok {fs : FS} {p : FsPath} {m : Nat}
    (hg : get_dir_writable fs p = .ok m) :
    lookupN fs.files p = some (.dir m) ∧ canWrite m = true := by
  cases hl : lookupN fs.files p with
  | none => simp [get_dir_writable, getN, hl] at hg
  | some nd =>
    cases nd with
    | file i mm => simp [get_dir_writable, getN, hl] at hg
    | dir mm =>
      by_cases hw : canWrite mm
      · have hm : mm = m := by simpa [get_dir_writable, getN, hl, hw] using hg
        subst hm
        exact ⟨rfl, hw⟩
      · simp [get_dir_writable, getN, hl, Bool.eq_false_iff.mpr hw] at hg

/-! ### Claim C3: remove_dir_all permission pre-check and atomicity -/

/-- C3: `remove_dir_all(P)` fails `PermissionDenied` when the directory at
`P` lacks the write bits or when any descendant, at any depth, has a mode
with no read bit; and whenever the call fails, for any reason, the state is
exactly what it was — the readability pre-check runs before any entry is
deleted. -/
theorem c3_remove_dir_all :
    (∀ (fs : FS) (p : FsPath) (m : Nat), lookupN fs.files p = some (.dir m) →
      (canWrite m = false ∨ ∃ d ∈ descendants fs p, d.2 &&& 0o444 = 0) →
      (remove_dir_all fs p).2 = .err .permissionDenied ∧ (remove_dir_all fs p).1 = fs) ∧
      (∀ (fs : FS) (p : FsPath) (e : Errk), (fs.files.map Prod.fst).Nodup →
        (remove_dir_all fs p).2 = .err e → (remove_dir_all fs p).1 = fs) := by
  constructor
  · intro fs p m h hbad
    by_cases hw : canWrite m
    · rcases hbad with hfalse | ⟨d, hd, hmode⟩
      · exact absurd (hw.symm.trans hfalse) (by decide)
      · have hgdw : get_dir_writable fs p = .ok m := by
          simp [get_dir_writable, getN, h, hw]
        have hallne : ¬((descendants fs p).all (fun d => decide (d.2 &&& 0o444 ≠ 0)) = true) := by
          intro hall
          have := List.all_eq_true.mp hall d hd
          simp [hmode] at this
        have hred : remove_dir_all fs p = (fs, .err .permissionDenied) := by
          simp only [remove_dir_all, hgdw]
          rw [if_neg hallne]
        rw [hred]
        exact ⟨rfl, rfl⟩
    · have hw' : canWrite m = false := Bool.eq_false_iff.mpr hw
      have hgdw : get_dir_writable fs p = .err .permissionDenied := by
        simp [get_dir_writable, getN, h, hw']
      have hred : remove_dir_all fs p = (fs, .err .permissionDenied) := by
        simp only [remove_dir_all, hgdw]
      rw [hred]
      exact ⟨rfl, rfl⟩
  · intro fs p e hnd herr
    cases hg : get_dir_writable fs p with
    | err e2 =>
      have hred : remove_dir_all fs p = (fs, .err e2) := by
        simp only [remove_dir_all, hg]
      rw [hred]
    | ok m =>
      obtain ⟨hlp, hw⟩ := get_dir_writable_ok hg
      by_cases hall : (descendants fs p).all (fun d => decide (d.2 &&& 0o444 ≠ 0)) = true
      · exfalso
        have hmapfst : (descendants fs p).map Prod.fst =
            (fs.files.filter fun e => isPre p e.1 && decide (e.1 ≠ p)).map Prod.fst := by
          simp [descendants, List.map_map]
        have hksnd : ((descendants fs p).map Prod.fst).Nodup := by
          rw [hmapfst]
          exact hnd.sublist ((List.filter_sublist _).map Prod.fst)
        have hmemks : ∀ k ∈ (descendants fs p).map Prod.fst,
            (lookupN fs.files k).isSome ∧ k ≠ p := by
          intro k hk
          rw [hmapfst] at hk
          obtain ⟨ent, hentmem, hentk⟩ := List.mem_map.mp hk
          have hentfiles := List.mem_of_mem_filter hentmem
          have hpred := List.of_mem_filter hentmem
          have hkne : ent.1 ≠ p := by
            simp only [Bool.and_eq_true, decide_eq_true_eq] at hpred
            exact hpred.2
          exact ⟨hentk ▸ lookupN_isSome_of_mem hentfiles, hentk ▸ hkne⟩
        have hsome : ∀ k ∈ (descendants fs p).map Prod.fst, (lookupN fs.files k).isSome :=
          fun k hk => (hmemks k hk).1
        have hnotin : p ∉ (descendants fs p).map Prod.fst :=
          fun hp => (hmemks p hp).2 rfl
        have hspec := removeList_spec ((descendants fs p).map Prod.fst) fs hksnd hsome
        have hlp1 : lookupN (removeList fs ((descendants fs p).map Prod.fst)).1.files p =
            some (.dir m) := by
          rw [hspec.2.2 p hnotin]
          exact hlp
        have hrdef : remove_dir_all fs p =
            thenDo (removeList fs ((descendants fs p).map Prod.fst)) (fun fs1 _ =>
              thenDo (removeN fs1 p) (fun fs2 _ => (fs2, .ok ()))) := by
          simp only [remove_dir_all, hg]
          rw [if_pos hall]
        have hfinal : (remove_dir_all fs p).2 = .ok () := by
          rw [hrdef, thenDo_eq_of_ok hspec.1]
          simp [removeN, hlp1, thenDo]
        rw [herr] at hfinal
        cases hfinal
      · have hred : remove_dir_all fs p = (fs, .err .permissionDenied) := by
          simp only [remove_dir_all, hg]
          rw [if_neg hall]
        rw [hred]

/-- C3 witness: removing `/d`, whose mode lacks the write bits, fails
`PermissionDenied` and leaves the registry unchanged. -/
theorem c3_witness :
    (remove_dir_all exPermFS ["d"]).2 = .err .permissionDenied ∧
      (remove_dir_all exPermFS ["d"]).1 = exPermFS :=
  c3_remove_dir_all.1 exPermFS ["d"] 0o444 (by decide) (Or.inl (by decide))

theorem canonGo_eq_claim : ∀ (cs : List String) (fs : FS) (acc : FsPath),
    canonGo fs acc cs = canonGoClaim fs acc cs := by
  intro cs
  induction cs with
  | nil => intro fs acc; rfl
  | cons c cs ih =>
    intro fs acc
    cases cs with
    | nil =>
      cases hl : lookupN fs.files (canonStep acc c) with
      | none => simp [canonGo, canonGoClaim, getN, hl]
      | some n => simp [canonGo, canonGoClaim, getN, hl]
    | cons c2 cs2 =>
      cases hl : lookupN fs.files (canonStep acc c) with
      | none => simp [canonGo, canonGoClaim, get_dir, getN, hl]
      | some n =>
        cases n with
        | file i m => simp [canonGo, canonGoClaim, get_dir, getN, hl]
        | dir m => simp [canonGo, canonGoClaim, get_dir, getN, hl, ih]

theorem canonGo_ok_fold : ∀ (cs : List String) (fs : FS) (acc r : FsPath),
    canonGo fs acc cs = .ok r →
    r = cs.foldl canonStep acc ∧ (cs ≠ [] → ∃ n, lookupN fs.files r = some n) := by
  intro cs
  induction cs with
  | nil =>
    intro fs acc r h
    cases h
    exact ⟨rfl, fun hne => absurd rfl hne⟩
  | cons c cs ih =>
    intro fs acc r h
    cases cs with
    | nil =>
      cases hl : lookupN fs.files (canonStep acc c) with
      | none => simp [canonGo, getN, hl] at h
      | some n =>
        have hr : r = canonStep acc c := by simpa [canonGo, getN, hl] using h.symm
        subst hr
        exact ⟨rfl, fun _ => ⟨n, hl⟩⟩
    | cons c2 cs2 =>
      cases hl : lookupN fs.files (canonStep acc c) with
      | none => simp [canonGo, get_dir, getN, hl] at h
      | some n =>
        cases n with
        | file i m => simp [canonGo, get_dir, getN, hl] at h
        | dir m =>
          have h2 : canonGo fs (canonStep acc c) (c2 :: cs2) = .ok r := by
            simpa [canonGo, get_dir, getN, hl] using h
          obtain ⟨hr, hex⟩ := ih fs (canonStep acc c) r h2
          exact ⟨hr, fun _ => hex (by simp)⟩

/-! ### Claim C8: canonicalize -/

/-- C8 counterexample: with a **file** at `/f`, canonicalizing `/f/x` fails
with the generic not-a-directory error, not with `NotFound` as the claim
states for every failing intermediate step. -/
theorem c8_counterexample :
    canonicalize_path exFileFS ["f", "x"] = .err .other ∧ Errk.other ≠ .notFound := by
  decide

/-- C8 amended: the walk pops the accumulated path on `..` (a no-op past
the root, as encoded in the claim-side walk) and checks, for every step
except the last, that the accumulated path resolves to an existing
directory — failing `NotFound` when it is absent and the generic error
when it is a file — while the final component may resolve to an entry of
any kind; the empty input path always fails `NotFound`, canonicalizing
`"/"` yields `"/"` whenever the root is present, and a successful result is
exactly the pop-clamped fold of the components and names an existing
entry. -/
theorem c8_canonicalize :
    (∀ (fs : FS) (comps : List String),
      canonicalize_path fs comps = canonicalizeClaim fs comps) ∧
      (∀ (fs : FS) (p : InputPath), p.absolute = false → p.comps = [] →
        facadeCanonicalize fs p = .err .notFound) ∧
      (∀ (fs : FS) (m : Nat), lookupN fs.files [] = some (.dir m) →
        facadeCanonicalize fs ⟨true, []⟩ = .ok []) ∧
      (∀ (fs : FS) (comps : List String) (r : FsPath),
        canonicalize_path fs comps = .ok r →
        r = comps.foldl canonStep [] ∧ ∃ n, lookupN fs.files r = some n) := by
  refine ⟨?_, ?_, ?_, ?_⟩
  · intro fs comps
    cases comps with
    | nil =>
      cases hl : lookupN fs.files [] with
      | none => simp [canonicalize_path, canonicalizeClaim, getN, hl]
      | some n => simp [canonicalize_path, canonicalizeClaim, getN, hl]
    | cons c cs =>
      cases hl : lookupN fs.files [] with
      | none => simp [canonicalize_path, canonicalizeClaim, get_dir, getN, hl]
      | some n =>
        cases n with
        | file i m => simp [canonicalize_path, canonicalizeClaim, get_dir, getN, hl]
        | dir m =>
          simp [canonicalize_path, canonicalizeClaim, get_dir, getN, hl, canonGo_eq_claim]
  · intro fs p habs hcomps
    simp [facadeCanonicalize, habs, hcomps]
  · intro fs m h
    simp [facadeCanonicalize, canonicalize_path, toAbsolute, getN, h]
  · intro fs comps r h
    cases comps with
    | nil =>
      cases hl : lookupN fs.files [] with
      | none => simp [canonicalize_path, getN, hl] at h
      | some n =>
        have hr : r = [] := by simpa [canonicalize_path, getN, hl] using h.symm
        subst hr
        exact ⟨rfl, n, hl⟩
    | cons c cs =>
      cases hl : lookupN fs.files [] with
      | none => simp [canonicalize_path, get_dir, getN, hl] at h
      | some n =>
        cases n with
        | file i m => simp [canonicalize_path, get_dir, getN, hl] at h
        | dir m =>
          have h2 : canonGo fs [] (c :: cs) = .ok r := by
            simpa [canonicalize_path, get_dir, getN, hl] using h
          obtain ⟨hr, hex⟩ := canonGo_ok_fold (c :: cs) fs [] r h2
          exact ⟨hr, hex (by simp)⟩

/-- C8 witness: canonicalizing the root path on the fresh registry. -/
theorem c8_witness :
    facadeCanonicalize Registry.new ⟨true, []⟩ = .ok [] :=
  c8_canonicalize.2.2.1 Registry.new 0o644 (by decide)

theorem lookupN_mem {es : List (FsPath × Node)} {p : FsPath} {n : Node}
    (h : lookupN es p = some n) : (p, n) ∈ es := by
  induction es with
  | nil => cases h
  | cons e es ih =>
    by_cases he : e.1 = p
    · have : some e.2 = some n := by simpa [lookupN, he] using h
      cases this
      have : e = (e.1, e.2) := rfl
      rw [he] at this
      exact this ▸ List.mem_cons_self e es
    · exact List.mem_cons_of_mem e (ih (by simpa [lookupN, he] using h))

theorem lookupN_map_keyupd (es : List (FsPath × Node)) (p q : FsPath) (u : Node → Node) :
    lookupN (es.map (fun e => if e.1 = p then (e.1, u e.2) else e)) q =
      Option.map (fun n => if q = p then u n else n) (lookupN es q) := by
  induction es with
  | nil => rfl
  | cons e es ih =>
    by_cases hq : e.1 = q
    · by_cases hp : e.1 = p
      · have hqp : q = p := by rw [← hq, ← hp]
        simp [lookupN, hp, hq, hqp]
      · have hqp : ¬q = p := fun hc => hp (by rw [hq, hc])
        simp [lookupN, hp, hq, hqp]
    · by_cases hp : e.1 = p
      · have hpq : ¬p = q := fun hc => hq (by rw [hp, hc])
        simp [lookupN, hp, hq, hpq, ih]
      · simp [lookupN, hp, hq, ih]

theorem isPre_ne_nil {p k : FsPath} (h : isPre p k = true) (hp : p ≠ []) : k ≠ [] := by
  cases p with
  | nil => exact absurd rfl hp
  | cons a as =>
    cases k with
    | nil => cases h
    | cons b bs => simp

/-! Root preservation: every mutating operation that is not a directory
removal or a rename rooted at `"/"` keeps the root entry a directory. -/

theorem insertN_root {fs : FS} {p : FsPath} {n : Node} (h : isRootDir fs = true) :
    isRootDir (insertN fs p n).1 = true := by
  by_cases hc : (lookupN fs.files p).isSome
  · simpa [insertN, hc] using h
  · have hpne : p ≠ [] := by
      intro hp
      subst hp
      revert h
      unfold isRootDir
      cases hl : lookupN fs.files [] with
      | none => intro hcon; cases hcon
      | some n2 => intro _; exact hc (by simp [hl])
    cases hpar : parentOf p with
    | none =>
      exact absurd (by cases p with | nil => rfl | cons a as => cases hpar) hpne
    | some q =>
      cases hg : get_dir_writable fs q with
      | err e => simpa [insertN, hc, hpar, hg] using h
      | ok m =>
        have : isRootDir { fs with files := (p, n) :: fs.files } = true := by
          unfold isRootDir at h ⊢
          simpa [lookupN, hpne] using h
        simpa [insertN, hc, hpar, hg] using this

theorem removeN_root {fs : FS} {p : FsPath} (hp : p ≠ []) (h : isRootDir fs = true) :
    isRootDir (removeN fs p).1 = true := by
  cases hl : lookupN fs.files p with
  | none => simpa [removeN, hl] using h
  | some n =>
    unfold isRootDir at h ⊢
    simp only [removeN, hl]
    show (match lookupN (fs.files.filter fun e => decide (e.1 ≠ p)) [] with
      | some (.dir _) => true | _ => false) = true
    rw [lookupN_filter_ne (Ne.symm hp)]
    exact h

theorem thenDo_root {α β : Type} (x : FS × Res α) (g : FS → α → FS × Res β)
    (hx : isRootDir x.1 = true)
    (hg : ∀ fs a, isRootDir fs = true → isRootDir (g fs a).1 = true) :
    isRootDir (thenDo x g).1 = true := by
  obtain ⟨fs1, r⟩ := x
  cases r with
  | ok a => exact hg fs1 a hx
  | err e => exact hx

theorem removeList_root : ∀ (ks : List FsPath) (fs : FS), (∀ k ∈ ks, k ≠ []) →
    isRootDir fs = true → isRootDir (removeList fs ks).1 = true := by
  intro ks
  induction ks with
  | nil => intro fs _ h; exact h
  | cons k ks ih =>
    intro fs hne h
    have hk : k ≠ [] := hne k (List.mem_cons_self k ks)
    have h1 : isRootDir (removeN fs k).1 = true := removeN_root hk h
    rcases hrm : removeN fs k with ⟨fs1, r⟩
    rw [hrm] at h1
    cases r with
    | ok n =>
      simp only [removeList, hrm]
      exact ih fs1 (fun k2 hk2 => hne k2 (List.mem_cons_of_mem k hk2)) h1
    | err e => simpa [removeList, hrm] using h1

theorem create_dir_root {fs : FS} {p : FsPath} (h : isRootDir fs = true) :
    isRootDir (create_dir fs p).1 = true := insertN_root h

theorem create_dir_all_root : ∀ (fuel : Nat) (fs : FS) (p : FsPath),
    isRootDir fs = true → isRootDir (create_dir_all fuel fs p).1 = true := by
  intro fuel
  induction fuel with
  | zero => intro fs p h; exact h
  | succ fuel ih =>
    intro fs p h
    have h1 : isRootDir (create_dir fs p).1 = true := create_dir_root h
    rcases hcd : create_dir fs p with ⟨fs1, r⟩
    rw [hcd] at h1
    cases r with
    | ok a => simpa [create_dir_all, hcd] using h1
    | err e =>
      simp only [create_dir_all, hcd]
      by_cases he : e = .notFound
      · simp only [he, if_true]
        cases hpar : parentOf p with
        | none => simpa using h1
        | some q =>
          have h2 : isRootDir (create_dir_all fuel fs1 q).1 = true := ih fs1 q h1
          rcases hrec : create_dir_all fuel fs1 q with ⟨fs2, r2⟩
          rw [hrec] at h2
          cases r2 with
          | ok a => simpa [hrec] using ih fs2 p h2
          | err e2 => simpa [hrec] using h2
      · simp only [if_neg (by simpa using he)]
        by_cases hd : is_dir fs1 p
        · simpa [hd] using h1
        · simpa [hd] using h1

theorem remove_dir_root {fs : FS} {p : FsPath} (hp : p ≠ []) (h : isRootDir fs = true) :
    isRootDir (remove_dir fs p).1 = true := by
  cases hg : get_dir fs p with
  | err e => simpa [remove_dir, hg] using h
  | ok m =>
    by_cases hd : descendants fs p = []
    · have : isRootDir (thenDo (removeN fs p) fun fs1 _ => (fs1, Res.ok ())).1 = true :=
        thenDo_root (removeN fs p) _ (removeN_root hp h) (fun fs2 _ h2 => h2)
      simpa [remove_dir, hg, hd] using this
    · simpa [remove_dir, hg, hd] using h

theorem remove_dir_all_root {fs : FS} {p : FsPath} (hp : p ≠ []) (h : isRootDir fs = true) :
    isRootDir (remove_dir_all fs p).1 = true := by
  cases hg : get_dir_writable fs p with
  | err e => simpa [remove_dir_all, hg] using h
  | ok m =>
    by_cases hall : (descendants fs p).all (fun d => decide (d.2 &&& 0o444 ≠ 0)) = true
    · have hks : ∀ k ∈ (descendants fs p).map Prod.fst, k ≠ [] := by
        intro k hk
        obtain ⟨d, hd, hdk⟩ := List.mem_map.mp hk
        unfold descendants at hd
        obtain ⟨ent, hentmem, hent⟩ := List.mem_map.mp hd
        have hpred := List.of_mem_filter hentmem
        simp only [Bool.and_eq_true, decide_eq_true_eq] at hpred
        have : ent.1 ≠ [] := isPre_ne_nil hpred.1 hp
        rw [← hdk, ← hent]
        exact this
      have hbody : isRootDir
          (thenDo (removeList fs ((descendants fs p).map Prod.fst)) (fun fs1 _ =>
            thenDo (removeN fs1 p) (fun fs2 _ => (fs2, .ok ())))).1 = true := by
        refine thenDo_root (removeList fs ((descendants fs p).map Prod.fst)) _
          (removeList_root _ fs hks h) ?_
        intro fs1 a h1
        exact thenDo_root (removeN fs1 p) _ (removeN_root hp h1) (fun fs2 _ h2 => h2)
      have hred : remove_dir_all fs p =
          thenDo (removeList fs ((descendants fs p).map Prod.fst)) (fun fs1 _ =>
            thenDo (removeN fs1 p) (fun fs2 _ => (fs2, .ok ()))) := by
        simp only [remove_dir_all, hg]
        rw [if_pos hall]
      rw [hred]
      exact hbody
    · have hred : remove_dir_all fs p = (fs, .err .permissionDenied) := by
        simp only [remove_dir_all, hg]
        rw [if_neg hall]
      rw [hred]
      exact h

theorem create_file_root {fs : FS} {p : FsPath} {buf : List Nat}
    (h : isRootDir fs = true) : isRootDir (create_file fs p buf).1 = true := by
  have : isRootDir { fs with heap := fs.heap ++ [buf] } = true := h
  exact insertN_root this

theorem write_file_root {fs : FS} {p : FsPath} {buf : List Nat}
    (h : isRootDir fs = true) : isRootDir (write_file fs p buf).1 = true := by
  cases hg : get_file_writable fs p with
  | ok fi => simpa [write_file, hg] using h
  | err e =>
    by_cases he : e = .notFound
    · simpa [write_file, hg, he] using create_file_root h
    · simpa [write_file, hg, he] using h

theorem overwrite_file_root {fs : FS} {p : FsPath} {buf : List Nat}
    (h : isRootDir fs = true) : isRootDir (overwrite_file fs p buf).1 = true := by
  cases hg : get_file_writable fs p with
  | ok fi => simpa [overwrite_file, hg] using h
  | err e => simpa [overwrite_file, hg] using h

theorem remove_file_root {fs : FS} {p : FsPath} (h : isRootDir fs = true) :
    isRootDir (remove_file fs p).1 = true := by
  cases hg : get_file fs p with
  | err e => simpa [remove_file, hg] using h
  | ok fi =>
    have hpne : p ≠ [] := by
      intro hp
      subst hp
      revert hg
      unfold isRootDir at h
      unfold get_file getN
      cases hl : lookupN fs.files [] with
      | none => rw [hl] at h; cases h
      | some n =>
        cases n with
        | file i m => rw [hl] at h; cases h
        | dir m => intro hg; simp at hg
    have : isRootDir (thenDo (removeN fs p) fun fs1 _ => (fs1, Res.ok ())).1 = true :=
      thenDo_root (removeN fs p) _ (removeN_root hpne h) (fun fs2 _ h2 => h2)
    simpa [remove_file, hg] using this

theorem copy_file_root {fs : FS} {f t : FsPath} (h : isRootDir fs = true) :
    isRootDir (copy_file fs f t).1 = true := by
  cases hr : read_file fs f with
  | ok buf => simpa [copy_file, hr] using write_file_root h
  | err e =>
    by_cases he : e = .other
    · simpa [copy_file, hr, he] using h
    · simpa [copy_file, hr, he] using h

theorem set_mode_root {fs : FS} {p : FsPath} {m : Nat} (h : isRootDir fs = true) :
    isRootDir (set_mode fs p m).1 = true := by
  cases hl : lookupN fs.files p with
  | none => simpa [set_mode, hl] using h
  | some n =>
    unfold isRootDir at h ⊢
    simp only [set_mode, hl]
    show (match lookupN (fs.files.map
        (fun e => if e.1 = p then (e.1, setNodeMode e.2 m) else e)) [] with
      | some (.dir _) => true | _ => false) = true
    rw [lookupN_map_keyupd fs.files p [] (fun n2 => setNodeMode n2 m)]
    cases hr : lookupN fs.files [] with
    | none => rw [hr] at h; simp at h
    | some rn =>
      cases rn with
      | file i mm => rw [hr] at h; simp at h
      | dir mm =>
        by_cases hp : ([] : FsPath) = p
        · simp [hp, setNodeMode]
        · simp [hp]

theorem set_readonly_root {fs : FS} {p : FsPath} {ro : Bool} (h : isRootDir fs = true) :
    isRootDir (set_readonly fs p ro).1 = true := by
  cases hl : lookupN fs.files p with
  | none => simpa [set_readonly, hl] using h
  | some n =>
    unfold isRootDir at h ⊢
    simp only [set_readonly, hl]
    show (match lookupN (fs.files.map
        (fun e => if e.1 = p then (e.1, setNodeMode e.2 (applyReadonly (nodeMode e.2) ro))
          else e)) [] with
      | some (.dir _) => true | _ => false) = true
    rw [lookupN_map_keyupd fs.files p []
      (fun n2 => setNodeMode n2 (applyReadonly (nodeMode n2) ro))]
    cases hr : lookupN fs.files [] with
    | none => rw [hr] at h; simp at h
    | some rn =>
      cases rn with
      | file i mm => rw [hr] at h; simp at h
      | dir mm =>
        by_cases hp : ([] : FsPath) = p
        · simp [hp, setNodeMode]
        · simp [hp]

theorem set_current_dir_root {fs : FS} {p : FsPath} (h : isRootDir fs = true) :
    isRootDir (set_current_dir fs p).1 = true := by
  cases hg : get_dir fs p with
  | ok m => simpa [set_current_dir, hg] using h
  | err e => simpa [set_current_dir, hg] using h

theorem rename_path_root {fs : FS} {f t : FsPath} (hf : f ≠ [])
    (h : isRootDir fs = true) : isRootDir (rename_path fs f t).1 = true :=
  thenDo_root (removeN fs f) _ (removeN_root hf h) (fun _ _ h1 => insertN_root h1)

theorem moveChildrenAux_root (ren : FS → FsPath → FsPath → FS × Res Unit)
    (hren : ∀ fs c t2, c ≠ [] → isRootDir fs = true → isRootDir (ren fs c t2).1 = true)
    (f t : FsPath) :
    ∀ (cs : List FsPath) (fs : FS), (∀ c ∈ cs, c ≠ []) → isRootDir fs = true →
      isRootDir (moveChildrenAux ren f t cs fs).1 = true := by
  intro cs
  induction cs with
  | nil => intro fs _ h; exact h
  | cons c cs ih =>
    intro fs hne h
    have hc := hne c (List.mem_cons_self c cs)
    have h1 : isRootDir (ren fs c (t ++ (if isPre f c then c.drop f.length else c))).1 = true :=
      hren fs c _ hc h
    rcases hr : ren fs c (t ++ (if isPre f c then c.drop f.length else c)) with ⟨fs1, r⟩
    rw [hr] at h1
    cases r with
    | ok a =>
      simp only [moveChildrenAux, hr]
      exact ih fs1 (fun c2 hc2 => hne c2 (List.mem_cons_of_mem c hc2)) h1
    | err e => simpa [moveChildrenAux, hr] using h1

theorem move_dirAux_root (ren : FS → FsPath → FsPath → FS × Res Unit)
    (hren : ∀ fs c t2, c ≠ [] → isRootDir fs = true → isRootDir (ren fs c t2).1 = true)
    {fs : FS} {f t : FsPath} (hf : f ≠ []) (h : isRootDir fs = true) :
    isRootDir (move_dirAux ren fs f t).1 = true := by
  unfold move_dirAux
  refine thenDo_root (rename_path fs f t) _ (rename_path_root hf h) ?_
  intro fs1 a h1
  refine moveChildrenAux_root ren hren f t (childrenKeys fs1 f) fs1 ?_ h1
  intro c hc
  unfold childrenKeys at hc
  have hq := List.of_mem_filter hc
  have hpar : parentOf c = some f := by simpa using hq
  cases c with
  | nil => cases hpar
  | cons a as => simp

theorem rename_root : ∀ (fuel : Nat) (fs : FS) (f t : FsPath), f ≠ [] →
    isRootDir fs = true → isRootDir (rename fuel fs f t).1 = true := by
  intro fuel
  induction fuel with
  | zero => intro fs f t _ h; exact h
  | succ fuel ih =>
    intro fs f t hf h
    have hren : ∀ fs2 c t2, c ≠ [] → isRootDir fs2 = true →
        isRootDir (rename fuel fs2 c t2).1 = true :=
      fun fs2 c t2 hc h2 => ih fs2 c t2 hc h2
    cases hlf : lookupN fs.files f with
    | none => simpa [rename, hlf] using h
    | some nf =>
      cases hlt : lookupN fs.files t with
      | none =>
        cases nf with
        | file i m => simpa [rename, hlf, hlt] using rename_path_root hf h
        | dir m => simpa [rename, hlf, hlt] using move_dirAux_root (rename fuel) hren hf h
      | some nt =>
        cases nf with
        | file i m =>
          cases nt with
          | file i2 m2 =>
            have hbody : isRootDir
                (thenDo (remove_file fs t) (fun fs1 _ => rename_path fs1 f t)).1 = true :=
              thenDo_root (remove_file fs t) _ (remove_file_root h)
                (fun fs1 _ h1 => rename_path_root hf h1)
            simpa [rename, hlf, hlt] using hbody
          | dir m2 => simpa [rename, hlf, hlt] using h
        | dir m =>
          cases nt with
          | file i2 m2 => simpa [rename, hlf, hlt] using h
          | dir m2 =>
            by_cases hd : descendants fs t = []
            · have htne : t ≠ [] := by
                intro ht
                subst ht
                have hmemf : (f, Node.dir m) ∈ fs.files := lookupN_mem hlf
                have hin : (f, m) ∈ descendants fs [] := by
                  unfold descendants
                  refine List.mem_map.mpr ⟨(f, Node.dir m), ?_, rfl⟩
                  refine List.mem_filter.mpr ⟨hmemf, ?_⟩
                  have h1 : isPre [] f = true := rfl
                  simp [h1, hf]
                rw [hd] at hin
                cases hin
              have hbody : isRootDir
                  (thenDo (removeN fs t)
                    (fun fs1 _ => move_dirAux (rename fuel) fs1 f t)).1 = true :=
                thenDo_root (removeN fs t) _ (removeN_root htne h)
                  (fun fs1 _ h1 => move_dirAux_root (rename fuel) hren hf h1)
              have hred : rename (fuel + 1) fs f t =
                  thenDo (removeN fs t) (fun fs1 _ => move_dirAux (rename fuel) fs1 f t) := by
                simp only [rename, hlf, hlt]
                rw [if_pos hd]
              rw [hred]
              exact hbody
            · have hred : rename (fuel + 1) fs f t = (fs, .err .other) := by
                simp only [rename, hlf, hlt]
                rw [if_neg hd]
              rw [hred]
              exact h

/-! ### Claim C1: the root entry -/

/-- C1 counterexample: on the fresh registry, whose only entry is the
root, `remove_dir("/")` succeeds and removes the root entry — the claimed
invariant that no operation ever removes the root is false. -/
theorem c1_counterexample :
    (remove_dir Registry.new []).2 = .ok () ∧
      lookupN (remove_dir Registry.new []).1.files [] = none := by
  decide

/-- C1 amended: the fresh registry maps the root to a `Dir`, and every
public mutating operation other than `remove_dir("/")`,
`remove_dir_all("/")` and `rename` with source `"/"` preserves the root as
a `Dir` (those three can in fact remove it, as the counterexample shows). -/
theorem c1_amended :
    isRootDir Registry.new = true ∧
      ∀ (fs : FS) (op : Op), isRootDir fs = true → allowedOp op = true →
        isRootDir (applyOp fs op) = true := by
  constructor
  · decide
  · intro fs op h hallow
    cases op with
    | opCreateDir p => exact create_dir_root h
    | opCreateDirAll fuel p => exact create_dir_all_root fuel fs p h
    | opRemoveDir p => exact remove_dir_root (of_decide_eq_true hallow) h
    | opRemoveDirAll p => exact remove_dir_all_root (of_decide_eq_true hallow) h
    | opCreateFile p buf => exact create_file_root h
    | opWriteFile p buf => exact write_file_root h
    | opOverwriteFile p buf => exact overwrite_file_root h
    | opRemoveFile p => exact remove_file_root h
    | opCopyFile f t => exact copy_file_root h
    | opRename fuel f t => exact rename_root fuel fs f t (of_decide_eq_true hallow) h
    | opSetReadonly p ro => exact set_readonly_root h
    | opSetMode p m => exact set_mode_root h
    | opSetCurrentDir p => exact set_current_dir_root h

/-- C1 amended witness: creating `/a` on the fresh registry keeps the root
a directory. -/
theorem c1_witness :
    isRootDir (applyOp Registry.new (.opCreateDir ["a"])) = true :=
  c1_amended.2 Registry.new (.opCreateDir ["a"]) (by decide) (by decide)

/-! Path-prefix arithmetic for the rename re-key proof. -/

theorem isPre_iff : ∀ {a b : FsPath}, isPre a b = true ↔ ∃ s, b = a ++ s := by
  intro a
  induction a with
  | nil => intro b; simp [isPre]
  | cons x xs ih =>
    intro b
    cases b with
    | nil =>
      simp only [isPre]
      constructor
      · intro h; cases h
      · rintro ⟨s, hs⟩; cases hs
    | cons y ys =>
      simp only [isPre, Bool.and_eq_true, decide_eq_true_eq]
      constructor
      · rintro ⟨rfl, h⟩
        obtain ⟨s, rfl⟩ := ih.mp h
        exact ⟨s, rfl⟩
      · rintro ⟨s, hs⟩
        injection hs with h1 h2
        exact ⟨h1.symm, ih.mpr ⟨s, h2⟩⟩

theorem isPre_refl (a : FsPath) : isPre a a = true :=
  isPre_iff.mpr ⟨[], by simp⟩

theorem isPre_append (a s : FsPath) : isPre a (a ++ s) = true :=
  isPre_iff.mpr ⟨s, rfl⟩

theorem isPre_trans {a b c : FsPath} (h1 : isPre a b = true) (h2 : isPre b c = true) :
    isPre a c = true := by
  obtain ⟨s1, rfl⟩ := isPre_iff.mp h1
  obtain ⟨s2, rfl⟩ := isPre_iff.mp h2
  exact isPre_iff.mpr ⟨s1 ++ s2, by simp⟩

theorem isPre_length {a b : FsPath} (h : isPre a b = true) : a.length ≤ b.length := by
  obtain ⟨s, rfl⟩ := isPre_iff.mp h
  simp

theorem isPre_take_eq {a k : FsPath} (h : isPre a k = true) : k.take a.length = a := by
  obtain ⟨s, rfl⟩ := isPre_iff.mp h
  exact List.take_left a s

theorem isPre_take_self (b : FsPath) (n : Nat) : isPre (b.take n) b = true :=
  isPre_iff.mpr ⟨b.drop n, (List.take_append_drop n b).symm⟩

theorem isPre_of_isPre_of_le {a b k : FsPath} (ha : isPre a k = true)
    (hb : isPre b k = true) (hle : a.length ≤ b.length) : isPre a b = true := by
  have h1 : k.take a.length = a := isPre_take_eq ha
  have h2 : k.take b.length = b := isPre_take_eq hb
  have h3 : (k.take b.length).take a.length = k.take a.length := by
    rw [List.take_take, Nat.min_eq_left hle]
  rw [h2, h1] at h3
  rw [← h3]
  exact isPre_take_self b a.length

theorem isPre_linear {a b k : FsPath} (ha : isPre a k = true) (hb : isPre b k = true) :
    isPre a b = true ∨ isPre b a = true := by
  by_cases hle : a.length ≤ b.length
  · exact Or.inl (isPre_of_isPre_of_le ha hb hle)
  · exact Or.inr (isPre_of_isPre_of_le hb ha (Nat.le_of_lt (Nat.lt_of_not_le hle)))

theorem eq_of_isPre_of_length {a b : FsPath} (h : isPre a b = true)
    (hl : a.length = b.length) : a = b := by
  obtain ⟨s, rfl⟩ := isPre_iff.mp h
  have : s.length = 0 := by
    have h2 : a.length = a.length + s.length := by simpa using hl
    omega
  rw [List.eq_nil_of_length_eq_zero this, List.append_nil]

theorem isPre_append_drop {t k : FsPath} (h : isPre t k = true) :
    t ++ k.drop t.length = k := by
  obtain ⟨s, rfl⟩ := isPre_iff.mp h
  rw [List.drop_left]

theorem isPre_snoc {a b : FsPath} {x : String} (h : isPre a (b ++ [x]) = true) :
    isPre a b = true ∨ a = b ++ [x] := by
  have hlen : a.length ≤ b.length + 1 := by
    have := isPre_length h
    simpa using this
  by_cases hle : a.length ≤ b.length
  · exact Or.inl (isPre_of_isPre_of_le h (isPre_append b [x]) hle)
  · have hl : a.length = (b ++ [x]).length := by simp; omega
    exact Or.inr (eq_of_isPre_of_length h hl)

theorem isPre_append_cancel {a b c : FsPath} (h : isPre (a ++ b) (a ++ c) = true) :
    isPre b c = true := by
  obtain ⟨s, hs⟩ := isPre_iff.mp h
  rw [List.append_assoc] at hs
  have : c = b ++ s := by
    have := congrArg (List.drop a.length) hs
    rwa [List.drop_left, List.drop_left] at this
  exact isPre_iff.mpr ⟨s, this⟩

theorem isPre_append_both (a : FsPath) {b c : FsPath} (h : isPre b c = true) :
    isPre (a ++ b) (a ++ c) = true := by
  obtain ⟨s, rfl⟩ := isPre_iff.mp h
  exact isPre_iff.mpr ⟨s, by rw [List.append_assoc]⟩

theorem dropLast_append_ne {f s : FsPath} (h : s ≠ []) :
    (f ++ s).dropLast = f ++ s.dropLast := by
  induction f with
  | nil => rfl
  | cons a as ih =>
    have hne : as ++ s ≠ [] := by
      intro hc
      exact h (List.append_eq_nil.mp hc).2
    show ((a :: (as ++ s)).dropLast) = a :: (as ++ s.dropLast)
    rw [List.dropLast_cons_of_ne_nil hne, ih]

theorem isPre_dropLast_self (l : FsPath) : isPre l.dropLast l = true := by
  cases hl : l with
  | nil => exact isPre_refl []
  | cons a as =>
    have hne : l ≠ [] := by rw [hl]; simp
    rw [← hl]
    exact isPre_iff.mpr ⟨[l.getLast hne], (List.dropLast_append_getLast hne).symm⟩

theorem childShape {c f : FsPath} (hne : c ≠ []) (hdl : c.dropLast = f) :
    c = f ++ [c.getLast hne] := by
  have := List.dropLast_append_getLast hne
  rw [hdl] at this
  exact this.symm

theorem parentOf_ne_nil {c : FsPath} (h : c ≠ []) : parentOf c = some c.dropLast := by
  cases c with
  | nil => exact absurd rfl h
  | cons a as => rfl

theorem lookupN_eq_none_iff {es : List (FsPath × Node)} {p : FsPath} :
    lookupN es p = none ↔ p ∉ es.map Prod.fst := by
  induction es with
  | nil =>
    constructor
    · intro _ hm
      cases hm
    · intro _
      rfl
  | cons e es ih =>
    constructor
    · intro h hm
      by_cases he : e.1 = p
      · rw [lookupN, if_pos he] at h
        cases h
      · rw [lookupN, if_neg he] at h
        rw [List.map_cons] at hm
        rcases List.mem_cons.mp hm with h1 | h2
        · exact he h1.symm
        · exact (ih.mp h) h2
    · intro hm
      by_cases he : e.1 = p
      · exact absurd (List.mem_map.mpr ⟨e, List.mem_cons_self e es, he⟩) hm
      · rw [lookupN, if_neg he]
        refine ih.mpr fun hm2 => hm ?_
        rw [List.map_cons]
        exact List.mem_cons_of_mem _ hm2

theorem exists_lookup_of_mem_keys {es : List (FsPath × Node)} {p : FsPath}
    (h : p ∈ es.map Prod.fst) : ∃ n, lookupN es p = some n := by
  cases hl : lookupN es p with
  | none => exact absurd h (lookupN_eq_none_iff.mp hl)
  | some n => exact ⟨n, rfl⟩

/-! Key uniqueness is preserved by every mutation reachable from
`Registry::rename`. -/

theorem thenDo_pres {α β : Type} (P : FS → Prop) (x : FS × Res α) (g : FS → α → FS × Res β)
    (hx : P x.1) (hg : ∀ fs a, P fs → P (g fs a).1) : P (thenDo x g).1 := by
  obtain ⟨fs1, r⟩ := x
  cases r with
  | ok a => exact hg fs1 a hx
  | err e => exact hx

theorem removeN_nodup {fs : FS} {p : FsPath} (h : (fs.files.map Prod.fst).Nodup) :
    ((removeN fs p).1.files.map Prod.fst).Nodup := by
  cases hl : lookupN fs.files p with
  | none => simpa [removeN, hl] using h
  | some n =>
    simp only [removeN, hl]
    exact h.sublist ((List.filter_sublist _).map Prod.fst)

theorem insertN_nodup {fs : FS} {p : FsPath} {n : Node}
    (h : (fs.files.map Prod.fst).Nodup) : ((insertN fs p n).1.files.map Prod.fst).Nodup := by
  cases hl : lookupN fs.files p with
  | some m => simpa [insertN, hl] using h
  | none =>
    have hcond : ¬((lookupN fs.files p).isSome = true) := by
      rw [hl]
      simp
    have hnotin : p ∉ fs.files.map Prod.fst := lookupN_eq_none_iff.mp hl
    have hres : (((p, n) :: fs.files).map Prod.fst).Nodup := by
      rw [List.map_cons]
      exact List.nodup_cons.mpr ⟨hnotin, h⟩
    cases hpar : parentOf p with
    | none =>
      simp only [insertN, hpar]
      rw [if_neg hcond]
      exact hres
    | some q =>
      cases hg : get_dir_writable fs q with
      | ok m =>
        simp only [insertN, hpar, hg]
        rw [if_neg hcond]
        exact hres
      | err e =>
        simp only [insertN, hpar, hg]
        rw [if_neg hcond]
        exact h

theorem remove_file_nodup {fs : FS} {p : FsPath} (h : (fs.files.map Prod.fst).Nodup) :
    ((remove_file fs p).1.files.map Prod.fst).Nodup := by
  cases hg : get_file fs p with
  | err e => simpa [remove_file, hg] using h
  | ok fi =>
    have : ((thenDo (removeN fs p) fun fs1 _ => (fs1, Res.ok ())).1.files.map Prod.fst).Nodup :=
      thenDo_pres (fun s => (s.files.map Prod.fst).Nodup) (removeN fs p) _
        (removeN_nodup h) (fun fs2 _ h2 => h2)
    simpa [remove_file, hg] using this

theorem rename_path_nodup {fs : FS} {f t : FsPath} (h : (fs.files.map Prod.fst).Nodup) :
    ((rename_path fs f t).1.files.map Prod.fst).Nodup :=
  thenDo_pres (fun s => (s.files.map Prod.fst).Nodup) (removeN fs f) _
    (removeN_nodup h) (fun _ _ h1 => insertN_nodup h1)

theorem moveChildrenAux_nodup (ren : FS → FsPath → FsPath → FS × Res Unit)
    (hren : ∀ fs c t2, (fs.files.map Prod.fst).Nodup →
      ((ren fs c t2).1.files.map Prod.fst).Nodup) (f t : FsPath) :
    ∀ (cs : List FsPath) (fs : FS), (fs.files.map Prod.fst).Nodup →
      ((moveChildrenAux ren f t cs fs).1.files.map Prod.fst).Nodup := by
  intro cs
  induction cs with
  | nil => intro fs h; exact h
  | cons c cs ih =>
    intro fs h
    have h1 := hren fs c (t ++ (if isPre f c then c.drop f.length else c)) h
    rcases hr : ren fs c (t ++ (if isPre f c then c.drop f.length else c)) with ⟨fs1, r⟩
    rw [hr] at h1
    cases r with
    | ok a =>
      simp only [moveChildrenAux, hr]
      exact ih fs1 h1
    | err e => simpa [moveChildrenAux, hr] using h1

theorem move_dirAux_nodup (ren : FS → FsPath → FsPath → FS × Res Unit)
    (hren : ∀ fs c t2, (fs.files.map Prod.fst).Nodup →
      ((ren fs c t2).1.files.map Prod.fst).Nodup) {fs : FS} {f t : FsPath}
    (h : (fs.files.map Prod.fst).Nodup) :
    ((move_dirAux ren fs f t).1.files.map Prod.fst).Nodup := by
  unfold move_dirAux
  exact thenDo_pres (fun s => (s.files.map Prod.fst).Nodup) (rename_path fs f t) _
    (rename_path_nodup h)
    (fun fs1 _ h1 => moveChildrenAux_nodup ren hren f t (childrenKeys fs1 f) fs1 h1)

theorem rename_nodup : ∀ (fuel : Nat) (fs : FS) (f t : FsPath),
    (fs.files.map Prod.fst).Nodup → ((rename fuel fs f t).1.files.map Prod.fst).Nodup := by
  intro fuel
  induction fuel with
  | zero => intro fs f t h; exact h
  | succ fuel ih =>
    intro fs f t h
    have hren : ∀ fs2 c t2, (fs2.files.map Prod.fst).Nodup →
        ((rename fuel fs2 c t2).1.files.map Prod.fst).Nodup :=
      fun fs2 c t2 h2 => ih fs2 c t2 h2
    cases hlf : lookupN fs.files f with
    | none => simpa [rename, hlf] using h
    | some nf =>
      cases hlt : lookupN fs.files t with
      | none =>
        cases nf with
        | file i m => simpa [rename, hlf, hlt] using rename_path_nodup h
        | dir m => simpa [rename, hlf, hlt] using move_dirAux_nodup (rename fuel) hren h
      | some nt =>
        cases nf with
        | file i m =>
          cases nt with
          | file i2 m2 =>
            have hbody := thenDo_pres (fun s => (s.files.map Prod.fst).Nodup)
              (remove_file fs t) (fun fs1 _ => rename_path fs1 f t)
              (remove_file_nodup h) (fun fs1 _ h1 => rename_path_nodup h1)
            simpa [rename, hlf, hlt] using hbody
          | dir m2 => simpa [rename, hlf, hlt] using h
        | dir m =>
          cases nt with
          | file i2 m2 => simpa [rename, hlf, hlt] using h
          | dir m2 =>
            by_cases hd : descendants fs t = []
            · have hbody := thenDo_pres (fun s => (s.files.map Prod.fst).Nodup)
                (removeN fs t) (fun fs1 _ => move_dirAux (rename fuel) fs1 f t)
                (removeN_nodup h) (fun fs1 _ h1 => move_dirAux_nodup (rename fuel) hren h1)
              have hred : rename (fuel + 1) fs f t =
                  thenDo (removeN fs t) (fun fs1 _ => move_dirAux (rename fuel) fs1 f t) := by
                simp only [rename, hlf, hlt]
                rw [if_pos hd]
              rw [hred]
              exact hbody
            · have hred : rename (fuel + 1) fs f t = (fs, .err .other) := by
                simp only [rename, hlf, hlt]
                rw [if_neg hd]
              rw [hred]
              exact h

theorem desc_has_child {fs : FS} {f : FsPath}
    (hWF : ∀ k nk, lookupN fs.files k = some nk → isPre f k = true → k ≠ f →
      ∃ md, lookupN fs.files k.dropLast = some (.dir md)) :
    ∀ (s : FsPath) (nk : Node), s ≠ [] → lookupN fs.files (f ++ s) = some nk →
      ∃ c nc, c.dropLast = f ∧ c ≠ [] ∧ isPre c (f ++ s) = true ∧
        lookupN fs.files c = some nc := by
  intro s
  induction s using List.reverseRecOn with
  | nil => intro nk hne _; exact absurd rfl hne
  | append_singleton s x ih =>
    intro nk _ hlk
    by_cases hs : s = []
    · subst hs
      refine ⟨f ++ [x], nk, ?_, by simp, ?_, by simpa using hlk⟩
      · rw [dropLast_append_ne (by simp)]
        simp
      · exact isPre_iff.mpr ⟨[], by simp⟩
    · have hkne : f ++ (s ++ [x]) ≠ f := by
        intro hc
        have := congrArg List.length hc
        simp at this
      have hpre : isPre f (f ++ (s ++ [x])) = true := isPre_append _ _
      obtain ⟨md, hmd⟩ := hWF (f ++ (s ++ [x])) nk hlk hpre hkne
      have hdl : (f ++ (s ++ [x])).dropLast = f ++ s := by
        rw [dropLast_append_ne (by simp)]
        rw [dropLast_append_ne (by simp : ([x] : FsPath) ≠ [])]
        simp
      rw [hdl] at hmd
      obtain ⟨c, nc, h1, h2, h3, h4⟩ := ih (.dir md) hs hmd
      refine ⟨c, nc, h1, h2, isPre_trans h3 ?_, h4⟩
      exact isPre_iff.mpr ⟨[x], by simp⟩

theorem file_no_strict_desc {fs : FS} {f : FsPath} {i m : Nat}
    (hf : lookupN fs.files f = some (.file i m))
    (hWF : ∀ k nk, lookupN fs.files k = some nk → isPre f k = true → k ≠ f →
      ∃ md, lookupN fs.files k.dropLast = some (.dir md)) :
    ∀ k, isPre f k = true → k ≠ f → lookupN fs.files k = none := by
  intro k hpre hne
  cases hlk : lookupN fs.files k with
  | none => rfl
  | some nk =>
    exfalso
    obtain ⟨s, rfl⟩ := isPre_iff.mp hpre
    have hs : s ≠ [] := by
      intro hc
      subst hc
      exact hne (by simp)
    obtain ⟨c, nc, h1, h2, h3, h4⟩ := desc_has_child hWF s nk hs hlk
    have hcf : c = f ++ [c.getLast h2] := childShape h2 h1
    have hclen : c.length = f.length + 1 := by
      rw [hcf]
      simp
    have hcne : c ≠ f := by
      intro hc
      rw [hc] at hclen
      omega
    have hcpre : isPre f c = true := by
      rw [hcf]
      exact isPre_append _ _
    obtain ⟨md, hmd⟩ := hWF c nc h4 hcpre hcne
    rw [h1, hf] at hmd
    cases hmd

theorem pair_err_ne_ok {α : Type} {a b : FS} {e : Errk} {u : α}
    (h : ((a, Res.err e) : FS × Res α) = (b, .ok u)) : False := by
  have h2 := congrArg Prod.snd h
  simp at h2

theorem pair_ok_eq {α : Type} {a b : FS} {u v : α}
    (h : ((a, Res.ok u) : FS × Res α) = (b, .ok v)) : a = b :=
  congrArg Prod.fst h

theorem src_img_disjoint {f t k : FsPath} (hTF : isPre t f = false)
    (hFT : isPre f t = false) (h1 : isPre f k = true) (h2 : isPre t k = true) : False := by
  rcases isPre_linear h1 h2 with h | h
  · rw [h] at hFT
    cases hFT
  · rw [h] at hTF
    cases hTF

theorem prefix_eq_of_len {a b k : FsPath} (ha : isPre a k = true) (hb : isPre b k = true)
    (hl : a.length = b.length) : a = b :=
  eq_of_isPre_of_length (isPre_of_isPre_of_le ha hb (Nat.le_of_eq hl)) hl

theorem noneUnder_of_entries {fs : FS} {t : FsPath}
    (h : ∀ e ∈ fs.files, isPre t e.1 = false) :
    ∀ k, isPre t k = true → lookupN fs.files k = none := by
  intro k hk
  cases hl : lookupN fs.files k with
  | none => rfl
  | some n =>
    have := h (k, n) (lookupN_mem hl)
    rw [hk] at this
    cases this

theorem localWF_of_entries {fs : FS} {f : FsPath}
    (h : ∀ e ∈ fs.files, isPre f e.1 = true → e.1 ≠ f → isDirAtB fs e.1.dropLast = true) :
    ∀ k nk, lookupN fs.files k = some nk → isPre f k = true → k ≠ f →
      ∃ md, lookupN fs.files k.dropLast = some (.dir md) := by
  intro k nk hlk hpre hne
  have hb := h (k, nk) (lookupN_mem hlk) hpre hne
  unfold isDirAtB at hb
  cases hd : lookupN fs.files k.dropLast with
  | none => rw [hd] at hb; cases hb
  | some n2 =>
    cases n2 with
    | file i m => rw [hd] at hb; cases hb
    | dir md => exact ⟨md, rfl⟩

theorem rename_path_ok_files {fs : FS} {f t : FsPath} {n : Node} {fs2 : FS}
    (hf : lookupN fs.files f = some n)
    (hok : rename_path fs f t = (fs2, .ok ())) :
    fs2.files = (t, n) :: fs.files.filter (fun e => decide (e.1 ≠ f)) ∧
      fs2.heap = fs.heap ∧ fs2.cwd = fs.cwd := by
  unfold rename_path at hok
  have hrm : removeN fs f =
      ({ fs with files := fs.files.filter fun e => decide (e.1 ≠ f) }, .ok n) := by
    simp [removeN, hf]
  rw [hrm] at hok
  simp only [thenDo] at hok
  set fs1 : FS := { fs with files := fs.files.filter fun e => decide (e.1 ≠ f) } with hfs1
  by_cases hc : (lookupN fs1.files t).isSome
  · have hins : insertN fs1 t n = (fs1, .err .alreadyExists) := by
      unfold insertN
      rw [if_pos hc]
    rw [hins] at hok
    exact absurd hok pair_err_ne_ok
  · cases hpar : parentOf t with
    | none =>
      have hins : insertN fs1 t n = ({ fs1 with files := (t, n) :: fs1.files }, .ok ()) := by
        unfold insertN
        rw [if_neg hc, hpar]
      rw [hins] at hok
      have := pair_ok_eq hok
      rw [← this]
      exact ⟨rfl, rfl, rfl⟩
    | some q =>
      cases hg : get_dir_writable fs1 q with
      | ok m =>
        have hins : insertN fs1 t n = ({ fs1 with files := (t, n) :: fs1.files }, .ok ()) := by
          unfold insertN
          rw [if_neg hc, hpar]
          simp [hg]
        rw [hins] at hok
        have := pair_ok_eq hok
        rw [← this]
        exact ⟨rfl, rfl, rfl⟩
      | err e =>
        have hins : insertN fs1 t n = (fs1, .err e) := by
          unfold insertN
          rw [if_neg hc, hpar]
          simp [hg]
        rw [hins] at hok
        exact absurd hok pair_err_ne_ok

theorem moveChildren_rekey (fuel : Nat) (ihren : RenameRekeyIH fuel)
    (fs0 : FS) (f t : FsPath)
    (hTF : isPre t f = false) (hFT : isPre f t = false)
    (hWF0 : ∀ k nk, lookupN fs0.files k = some nk → isPre f k = true → k ≠ f →
      ∃ md, lookupN fs0.files k.dropLast = some (.dir md)) :
    ∀ (cs : List FsPath) (fsc : FS),
      cs.Nodup →
      (∀ c ∈ cs, c.dropLast = f ∧ c ≠ []) →
      (∀ c ∈ cs, ∃ nc, lookupN fs0.files c = some nc) →
      (fsc.files.map Prod.fst).Nodup →
      (∀ k, lookupN fsc.files k =
        if ∃ c ∈ cs, isPre c k = true then lookupN fs0.files k
        else if ∃ c ∈ cs, isPre (t ++ c.drop f.length) k = true then none
        else rekeyLookup fs0 f t k) →
      ∀ fs2, moveChildrenAux (rename fuel) f t cs fsc = (fs2, .ok ()) →
      ∀ k, lookupN fs2.files k = rekeyLookup fs0 f t k := by
  intro cs
  induction cs with
  | nil =>
    intro fsc _ _ _ _ hinv fs2 hrun k
    have heq : fsc = fs2 := by simpa [moveChildrenAux] using hrun
    rw [← heq]
    have h := hinv k
    rw [if_neg (by simp), if_neg (by simp)] at h
    exact h
  | cons c0 cs ih =>
    intro fsc hnd hshape hsrc hndc hinv fs2 hrun k
    obtain ⟨hdl0, hne0⟩ := hshape c0 (List.mem_cons_self c0 cs)
    obtain ⟨x, hcx⟩ : ∃ x, c0 = f ++ [x] := ⟨c0.getLast hne0, childShape hne0 hdl0⟩
    subst hcx
    have hdropx : (f ++ [x]).drop f.length = [x] := List.drop_left f [x]
    have hfpre : isPre f (f ++ [x]) = true := isPre_append f [x]
    have hx_notin : f ++ [x] ∉ cs := (List.nodup_cons.mp hnd).1
    have hndcs : cs.Nodup := (List.nodup_cons.mp hnd).2
    have hshapeX : ∀ c2 ∈ cs, ∃ x2, c2 = f ++ [x2] := by
      intro c2 hc2
      obtain ⟨hd2, hn2⟩ := hshape c2 (List.mem_cons_of_mem _ hc2)
      exact ⟨c2.getLast hn2, childShape hn2 hd2⟩
    obtain ⟨nc, hnc⟩ := hsrc (f ++ [x]) (List.mem_cons_self _ _)
    have harg : (if isPre f (f ++ [x]) = true then (f ++ [x]).drop f.length
        else f ++ [x]) = [x] := by
      rw [if_pos hfpre, hdropx]
    have hrun1 : (match rename fuel fsc (f ++ [x]) (t ++ [x]) with
        | (fs1, .ok _) => moveChildrenAux (rename fuel) f t cs fs1
        | r => r) = (fs2, .ok ()) := by
      have h0 := hrun
      simp only [moveChildrenAux] at h0
      rw [harg] at h0
      exact h0
    rcases hrn : rename fuel fsc (f ++ [x]) (t ++ [x]) with ⟨fs1, r⟩
    rw [hrn] at hrun1
    cases r with
    | err e => exact absurd hrun1 pair_err_ne_ok
    | ok a =>
      cases a
      have hrun2 : moveChildrenAux (rename fuel) f t cs fs1 = (fs2, .ok ()) := hrun1
      have hinvc := hinv (f ++ [x])
      rw [if_pos ⟨f ++ [x], List.mem_cons_self _ _, isPre_refl _⟩] at hinvc
      have hlc : lookupN fsc.files (f ++ [x]) = some nc := by rw [hinvc, hnc]
      have hnuX : ∀ k2, isPre (t ++ [x]) k2 = true → lookupN fsc.files k2 = none := by
        intro k2 hk2
        have htk2 : isPre t k2 = true := isPre_trans (isPre_append t [x]) hk2
        have hc1 : ¬∃ c2 ∈ (f ++ [x]) :: cs, isPre c2 k2 = true := by
          rintro ⟨c2, hc2mem, hc2pre⟩
          have hfc2 : isPre f c2 = true := by
            rcases List.mem_cons.mp hc2mem with rfl | hmem
            · exact hfpre
            · obtain ⟨x2, rfl⟩ := hshapeX c2 hmem
              exact isPre_append f [x2]
          exact src_img_disjoint hTF hFT (isPre_trans hfc2 hc2pre) htk2
        have hc2w : ∃ c2 ∈ (f ++ [x]) :: cs, isPre (t ++ c2.drop f.length) k2 = true :=
          ⟨f ++ [x], List.mem_cons_self _ _, by rw [hdropx]; exact hk2⟩
        have h := hinv k2
        rw [if_neg hc1, if_pos hc2w] at h
        exact h
      have hTF2 : isPre (t ++ [x]) (f ++ [x]) = false := by
        apply Bool.eq_false_iff.mpr
        intro htrue
        exact src_img_disjoint hTF hFT hfpre (isPre_trans (isPre_append t [x]) htrue)
      have hFT2 : isPre (f ++ [x]) (t ++ [x]) = false := by
        apply Bool.eq_false_iff.mpr
        intro htrue
        exact src_img_disjoint hTF hFT (isPre_trans hfpre htrue) (isPre_append t [x])
      have hWF2 : ∀ k2 nk2, lookupN fsc.files k2 = some nk2 →
          isPre (f ++ [x]) k2 = true → k2 ≠ f ++ [x] →
          ∃ md, lookupN fsc.files k2.dropLast = some (.dir md) := by
        intro k2 nk2 hlk2 hpre2 hne2
        have hc1 : ∃ c2 ∈ (f ++ [x]) :: cs, isPre c2 k2 = true :=
          ⟨f ++ [x], List.mem_cons_self _ _, hpre2⟩
        have h2 := hinv k2
        rw [if_pos hc1] at h2
        obtain ⟨s, rfl⟩ := isPre_iff.mp hpre2
        have hsne : s ≠ [] := by
          intro hc
          subst hc
          exact hne2 (by simp)
        have hdpre : isPre (f ++ [x]) ((f ++ [x]) ++ s).dropLast = true := by
          rw [dropLast_append_ne hsne]
          exact isPre_append _ _
        have hd2 := hinv ((f ++ [x]) ++ s).dropLast
        rw [if_pos ⟨f ++ [x], List.mem_cons_self _ _, hdpre⟩] at hd2
        have hlk0 : lookupN fs0.files ((f ++ [x]) ++ s) = some nk2 := by
          rw [← h2]
          exact hlk2
        have hfk2 : isPre f ((f ++ [x]) ++ s) = true :=
          isPre_trans hfpre (isPre_append _ _)
        have hk2nef : (f ++ [x]) ++ s ≠ f := by
          intro hc
          have hlen := congrArg List.length hc
          simp only [List.length_append, List.length_cons, List.length_nil] at hlen
          omega
        obtain ⟨md, hmd⟩ := hWF0 _ nk2 hlk0 hfk2 hk2nef
        refine ⟨md, ?_⟩
        rw [hd2]
        exact hmd
      have hstep := ihren fsc (f ++ [x]) (t ++ [x]) nc hlc hnuX hTF2 hFT2 hWF2 hndc fs1 hrn
      have hnd1 : (fs1.files.map Prod.fst).Nodup := by
        have h := rename_nodup fuel fsc (f ++ [x]) (t ++ [x]) hndc
        rw [hrn] at h
        exact h
      have hinv2 : ∀ k2, lookupN fs1.files k2 =
          if ∃ c2 ∈ cs, isPre c2 k2 = true then lookupN fs0.files k2
          else if ∃ c2 ∈ cs, isPre (t ++ c2.drop f.length) k2 = true then none
          else rekeyLookup fs0 f t k2 := by
        intro k2
        have hL := hstep k2
        unfold rekeyLookup at hL
        by_cases hA : isPre (f ++ [x]) k2 = true
        · rw [if_pos hA] at hL
          have hnc1 : ¬∃ c2 ∈ cs, isPre c2 k2 = true := by
            rintro ⟨c2, hc2mem, hc2pre⟩
            obtain ⟨x2, rfl⟩ := hshapeX c2 hc2mem
            have heq : f ++ [x2] = f ++ [x] := prefix_eq_of_len hc2pre hA (by simp)
            rw [heq] at hc2mem
            exact hx_notin hc2mem
          have hnc2 : ¬∃ c2 ∈ cs, isPre (t ++ c2.drop f.length) k2 = true := by
            rintro ⟨c2, hc2mem, hc2pre⟩
            obtain ⟨x2, rfl⟩ := hshapeX c2 hc2mem
            rw [List.drop_left f [x2]] at hc2pre
            exact src_img_disjoint hTF hFT (isPre_trans hfpre hA)
              (isPre_trans (isPre_append t [x2]) hc2pre)
          rw [if_neg hnc1, if_neg hnc2, rekeyLookup, if_pos (isPre_trans hfpre hA)]
          exact hL
        · rw [if_neg hA] at hL
          by_cases hB : isPre (t ++ [x]) k2 = true
          · rw [if_pos hB] at hL
            obtain ⟨s, hks⟩ := isPre_iff.mp hB
            have hdropk : k2.drop (t ++ [x]).length = s := by
              rw [hks]
              exact List.drop_left _ _
            have hdropk2 : k2.drop t.length = [x] ++ s := by
              rw [hks, List.append_assoc]
              exact List.drop_left t ([x] ++ s)
            have hreg : ∃ c2 ∈ (f ++ [x]) :: cs, isPre c2 ((f ++ [x]) ++ s) = true :=
              ⟨f ++ [x], List.mem_cons_self _ _, isPre_append _ _⟩
            have hv := hinv ((f ++ [x]) ++ s)
            rw [if_pos hreg] at hv
            rw [hdropk, hv] at hL
            have hnc1 : ¬∃ c2 ∈ cs, isPre c2 k2 = true := by
              rintro ⟨c2, hc2mem, hc2pre⟩
              obtain ⟨x2, rfl⟩ := hshapeX c2 hc2mem
              exact src_img_disjoint hTF hFT
                (isPre_trans (isPre_append f [x2]) hc2pre)
                (isPre_trans (isPre_append t [x]) hB)
            have hnc2 : ¬∃ c2 ∈ cs, isPre (t ++ c2.drop f.length) k2 = true := by
              rintro ⟨c2, hc2mem, hc2pre⟩
              obtain ⟨x2, rfl⟩ := hshapeX c2 hc2mem
              rw [List.drop_left f [x2]] at hc2pre
              have heq : t ++ [x2] = t ++ [x] := prefix_eq_of_len hc2pre hB (by simp)
              have hx2 : x2 = x := by
                have hh := congrArg (List.drop t.length) heq
                rw [List.drop_left, List.drop_left] at hh
                injection hh
              rw [hx2] at hc2mem
              exact hx_notin hc2mem
            have hfk2n : ¬(isPre f k2 = true) := by
              intro htrue
              exact src_img_disjoint hTF hFT htrue (isPre_trans (isPre_append t [x]) hB)
            rw [if_neg hnc1, if_neg hnc2, rekeyLookup, if_neg hfk2n,
              if_pos (isPre_trans (isPre_append t [x]) hB), hdropk2,
              ← List.append_assoc]
            exact hL
          · rw [if_neg hB] at hL
            rw [hL, hinv k2]
            by_cases hc1 : ∃ c2 ∈ cs, isPre c2 k2 = true
            · obtain ⟨c2, hm, hp⟩ := hc1
              have w1 : ∃ c3 ∈ (f ++ [x]) :: cs, isPre c3 k2 = true :=
                ⟨c2, List.mem_cons_of_mem _ hm, hp⟩
              have w2 : ∃ c3 ∈ cs, isPre c3 k2 = true := ⟨c2, hm, hp⟩
              rw [if_pos w1, if_pos w2]
            · have hc1' : ¬∃ c2 ∈ (f ++ [x]) :: cs, isPre c2 k2 = true := by
                rintro ⟨c2, hm, hp⟩
                rcases List.mem_cons.mp hm with rfl | hm2
                · exact hA hp
                · exact hc1 ⟨c2, hm2, hp⟩
              rw [if_neg hc1, if_neg hc1']
              by_cases hc2 : ∃ c2 ∈ cs, isPre (t ++ c2.drop f.length) k2 = true
              · obtain ⟨c2, hm, hp⟩ := hc2
                have w1 : ∃ c3 ∈ (f ++ [x]) :: cs, isPre (t ++ c3.drop f.length) k2 = true :=
                  ⟨c2, List.mem_cons_of_mem _ hm, hp⟩
                have w2 : ∃ c3 ∈ cs, isPre (t ++ c3.drop f.length) k2 = true := ⟨c2, hm, hp⟩
                rw [if_pos w1, if_pos w2]
              · have hc2' : ¬∃ c2 ∈ (f ++ [x]) :: cs,
                    isPre (t ++ c2.drop f.length) k2 = true := by
                  rintro ⟨c2, hm, hp⟩
                  rcases List.mem_cons.mp hm with rfl | hm2
                  · rw [hdropx] at hp
                    exact hB hp
                  · exact hc2 ⟨c2, hm2, hp⟩
                rw [if_neg hc2, if_neg hc2']
      exact ih fs1 hndcs (fun c2 hc2 => hshape c2 (List.mem_cons_of_mem _ hc2))
        (fun c2 hc2 => hsrc c2 (List.mem_cons_of_mem _ hc2)) hnd1 hinv2 fs2 hrun2 k

theorem move_dir_rekey (fuel : Nat) (ihren : RenameRekeyIH fuel)
    {fs : FS} {f t : FsPath} {n : Node}
    (hf : lookupN fs.files f = some n)
    (hnu : ∀ k, isPre t k = true → lookupN fs.files k = none)
    (hTF : isPre t f = false) (hFT : isPre f t = false)
    (hWF : ∀ k nk, lookupN fs.files k = some nk → isPre f k = true → k ≠ f →
      ∃ md, lookupN fs.files k.dropLast = some (.dir md))
    (hnd : (fs.files.map Prod.fst).Nodup) :
    ∀ fs2, move_dirAux (rename fuel) fs f t = (fs2, .ok ()) →
    ∀ k, lookupN fs2.files k = rekeyLookup fs f t k := by
  have hFTn : ¬(isPre f t = true) := by
    intro h
    rw [hFT] at h
    cases h
  have hTFn : ¬(isPre t f = true) := by
    intro h
    rw [hTF] at h
    cases h
  intro fs2 hrun k
  unfold move_dirAux at hrun
  rcases hrp : rename_path fs f t with ⟨fs1, r1⟩
  rw [hrp] at hrun
  cases r1 with
  | err e => simp [thenDo] at hrun
  | ok a =>
    cases a
    have hrun1 : moveChildrenAux (rename fuel) f t (childrenKeys fs1 f) fs1 =
        (fs2, .ok ()) := by
      simpa [thenDo] using hrun
    obtain ⟨hfiles1, hheap1, hcwd1⟩ := rename_path_ok_files hf hrp
    have htne : t ≠ f := by
      intro hc
      rw [← hc, isPre_refl] at hTF
      cases hTF
    have hlk1 : ∀ q, lookupN fs1.files q =
        if q = t then some n else if q = f then none else lookupN fs.files q := by
      intro q
      rw [hfiles1]
      show lookupN ((t, n) :: fs.files.filter fun e => decide (e.1 ≠ f)) q = _
      by_cases hqt : q = t
      · subst hqt
        simp [lookupN]
      · rw [lookupN, if_neg (fun hc : t = q => hqt hc.symm), if_neg hqt]
        by_cases hqf : q = f
        · subst hqf
          rw [lookupN_filter_self, if_pos rfl]
        · rw [lookupN_filter_ne hqf, if_neg hqf]
    have hnd1 : (fs1.files.map Prod.fst).Nodup := by
      have h := @rename_path_nodup fs f t hnd
      rw [hrp] at h
      exact h
    have hshape : ∀ c ∈ childrenKeys fs1 f, c.dropLast = f ∧ c ≠ [] := by
      intro c hc
      unfold childrenKeys at hc
      have hq := List.of_mem_filter hc
      have hpar : parentOf c = some f := by simpa using hq
      cases c with
      | nil => cases hpar
      | cons a as =>
        have hcc : parentOf (a :: as) = some ((a :: as).dropLast) := rfl
        rw [hcc] at hpar
        injection hpar with h1
        exact ⟨h1, by simp⟩
    have hcsnd : (childrenKeys fs1 f).Nodup := by
      unfold childrenKeys
      exact hnd1.filter _
    have hsrc : ∀ c ∈ childrenKeys fs1 f, ∃ nc, lookupN fs.files c = some nc := by
      intro c hc
      obtain ⟨hdl, hne⟩ := hshape c hc
      obtain ⟨x, hcx⟩ : ∃ x, c = f ++ [x] := ⟨c.getLast hne, childShape hne hdl⟩
      have hcmem : c ∈ fs1.files.map Prod.fst := by
        unfold childrenKeys at hc
        exact List.mem_of_mem_filter hc
      obtain ⟨nc, hnc⟩ := exists_lookup_of_mem_keys hcmem
      have hcnet : c ≠ t := by
        intro hct
        rw [hcx] at hct
        exact hFTn (by rw [← hct]; exact isPre_append f [x])
      have hcnef : c ≠ f := by
        intro hcf
        rw [hcf] at hcx
        have hlen := congrArg List.length hcx
        simp at hlen
      have h1 := hlk1 c
      rw [if_neg hcnet, if_neg hcnef] at h1
      rw [h1] at hnc
      exact ⟨nc, hnc⟩
    have hmemcs : ∀ c nc, lookupN fs.files c = some nc → c.dropLast = f → c ≠ [] →
        c ∈ childrenKeys fs1 f := by
      intro c nc hlc hdl hne
      obtain ⟨x, hcx⟩ : ∃ x, c = f ++ [x] := ⟨c.getLast hne, childShape hne hdl⟩
      have hcnet : c ≠ t := by
        intro hct
        rw [hcx] at hct
        exact hFTn (by rw [← hct]; exact isPre_append f [x])
      have hcnef : c ≠ f := by
        intro hcf
        rw [hcf] at hcx
        have hlen := congrArg List.length hcx
        simp at hlen
      have h1 := hlk1 c
      rw [if_neg hcnet, if_neg hcnef] at h1
      have hl1 : lookupN fs1.files c = some nc := by
        rw [h1]
        exact hlc
      have hmem : c ∈ fs1.files.map Prod.fst :=
        List.mem_map.mpr ⟨(c, nc), lookupN_mem hl1, rfl⟩
      unfold childrenKeys
      refine List.mem_filter.mpr ⟨hmem, ?_⟩
      have hpar : parentOf c = some f := by
        rw [parentOf_ne_nil hne, hdl]
      simp [hpar]
    have hinv : ∀ q, lookupN fs1.files q =
        if ∃ c ∈ childrenKeys fs1 f, isPre c q = true then lookupN fs.files q
        else if ∃ c ∈ childrenKeys fs1 f, isPre (t ++ c.drop f.length) q = true then none
        else rekeyLookup fs f t q := by
      intro q
      by_cases hqt : q = t
      · rw [hqt]
        have h1 := hlk1 t
        rw [if_pos rfl] at h1
        have hnc1 : ¬∃ c ∈ childrenKeys fs1 f, isPre c t = true := by
          rintro ⟨c, hm, hp⟩
          obtain ⟨hdl, hne⟩ := hshape c hm
          obtain ⟨x, rfl⟩ : ∃ x, c = f ++ [x] := ⟨c.getLast hne, childShape hne hdl⟩
          exact hFTn (isPre_trans (isPre_append f [x]) hp)
        have hnc2 : ¬∃ c ∈ childrenKeys fs1 f, isPre (t ++ c.drop f.length) t = true := by
          rintro ⟨c, hm, hp⟩
          obtain ⟨hdl, hne⟩ := hshape c hm
          obtain ⟨x, rfl⟩ : ∃ x, c = f ++ [x] := ⟨c.getLast hne, childShape hne hdl⟩
          rw [List.drop_left f [x]] at hp
          have hlen := isPre_length hp
          simp only [List.length_append, List.length_cons, List.length_nil] at hlen
          omega
        rw [h1, if_neg hnc1, if_neg hnc2, rekeyLookup, if_neg hFTn,
          if_pos (isPre_refl t), List.drop_length, List.append_nil, hf]
      · by_cases hqf : q = f
        · rw [hqf]
          have h1 := hlk1 f
          rw [if_neg (fun hc : f = t => htne hc.symm), if_pos rfl] at h1
          have hnc1 : ¬∃ c ∈ childrenKeys fs1 f, isPre c f = true := by
            rintro ⟨c, hm, hp⟩
            obtain ⟨hdl, hne⟩ := hshape c hm
            obtain ⟨x, rfl⟩ : ∃ x, c = f ++ [x] := ⟨c.getLast hne, childShape hne hdl⟩
            have hlen := isPre_length hp
            simp only [List.length_append, List.length_cons, List.length_nil] at hlen
            omega
          have hnc2 : ¬∃ c ∈ childrenKeys fs1 f,
              isPre (t ++ c.drop f.length) f = true := by
            rintro ⟨c, hm, hp⟩
            obtain ⟨hdl, hne⟩ := hshape c hm
            obtain ⟨x, rfl⟩ : ∃ x, c = f ++ [x] := ⟨c.getLast hne, childShape hne hdl⟩
            rw [List.drop_left f [x]] at hp
            exact hTFn (isPre_trans (isPre_append t [x]) hp)
          rw [h1, if_neg hnc1, if_neg hnc2, rekeyLookup, if_pos (isPre_refl f)]
        · have h1 := hlk1 q
          rw [if_neg (fun hc : q = t => hqt hc), if_neg hqf] at h1
          rw [h1]
          by_cases hc1 : ∃ c ∈ childrenKeys fs1 f, isPre c q = true
          · rw [if_pos hc1]
          · rw [if_neg hc1]
            by_cases hc2 : ∃ c ∈ childrenKeys fs1 f, isPre (t ++ c.drop f.length) q = true
            · rw [if_pos hc2]
              obtain ⟨c, hm, hp⟩ := hc2
              obtain ⟨hdl, hne⟩ := hshape c hm
              obtain ⟨x, rfl⟩ : ∃ x, c = f ++ [x] := ⟨c.getLast hne, childShape hne hdl⟩
              rw [List.drop_left f [x]] at hp
              exact hnu q (isPre_trans (isPre_append t [x]) hp)
            · rw [if_neg hc2, rekeyLookup]
              by_cases hfq : isPre f q = true
              · rw [if_pos hfq]
                cases hlq : lookupN fs.files q with
                | none => rfl
                | some nq =>
                  exfalso
                  obtain ⟨s, rfl⟩ := isPre_iff.mp hfq
                  have hsne : s ≠ [] := by
                    intro hc
                    exact hqf (by rw [hc]; simp)
                  obtain ⟨c0, nc0, hdl0, hne0, hpre0, hl0⟩ :=
                    desc_has_child hWF s nq hsne hlq
                  exact hc1 ⟨c0, hmemcs c0 nc0 hl0 hdl0 hne0, hpre0⟩
              · rw [if_neg hfq]
                by_cases htq : isPre t q = true
                · rw [if_pos htq, hnu q htq]
                  cases hlq2 : lookupN fs.files (f ++ q.drop t.length) with
                  | none => rfl
                  | some nq2 =>
                    exfalso
                    have hsne : q.drop t.length ≠ [] := by
                      intro hc
                      have hqeq := isPre_append_drop htq
                      rw [hc, List.append_nil] at hqeq
                      exact hqt hqeq.symm
                    obtain ⟨c0, nc0, hdl0, hne0, hpre0, hl0⟩ :=
                      desc_has_child hWF (q.drop t.length) nq2 hsne hlq2
                    obtain ⟨x0, hcx0⟩ : ∃ x0, c0 = f ++ [x0] :=
                      ⟨c0.getLast hne0, childShape hne0 hdl0⟩
                    have hximg : isPre (t ++ [x0]) q = true := by
                      have h01 : isPre [x0] (q.drop t.length) = true := by
                        rw [hcx0] at hpre0
                        exact @isPre_append_cancel f [x0] (q.drop t.length) hpre0
                      have h02 : isPre (t ++ [x0]) (t ++ q.drop t.length) = true :=
                        isPre_append_both t h01
                      rw [isPre_append_drop htq] at h02
                      exact h02
                    refine hc2 ⟨c0, hmemcs c0 nc0 hl0 hdl0 hne0, ?_⟩
                    rw [hcx0, List.drop_left f [x0]]
                    exact hximg
                · rw [if_neg htq]
    exact moveChildren_rekey fuel ihren fs f t hTF hFT hWF (childrenKeys fs1 f) fs1
      hcsnd hshape hsrc hnd1 hinv fs2 hrun1 k

theorem rename_rekey : ∀ fuel, RenameRekeyIH fuel := by
  intro fuel
  induction fuel with
  | zero =>
    intro fs f t n _ _ _ _ _ _ fs2 hrun
    exact absurd hrun pair_err_ne_ok
  | succ fuel ih =>
    intro fs f t n hf hnu hTF hFT hWF hnd fs2 hrun k
    have hFTn : ¬(isPre f t = true) := by
      intro h
      rw [hFT] at h
      cases h
    have hlt : lookupN fs.files t = none := hnu t (isPre_refl t)
    cases n with
    | dir m =>
      have hred : rename (fuel + 1) fs f t = move_dirAux (rename fuel) fs f t := by
        simp only [rename, hf, hlt]
      rw [hred] at hrun
      exact move_dir_rekey fuel ih hf hnu hTF hFT hWF hnd fs2 hrun k
    | file i m =>
      have hred : rename (fuel + 1) fs f t = rename_path fs f t := by
        simp only [rename, hf, hlt]
      rw [hred] at hrun
      obtain ⟨hfiles2, _, _⟩ := rename_path_ok_files hf hrun
      have htne : t ≠ f := by
        intro hc
        rw [← hc, isPre_refl] at hTF
        cases hTF
      have hlk2 : lookupN fs2.files k =
          if k = t then some (.file i m) else if k = f then none
          else lookupN fs.files k := by
        rw [hfiles2]
        show lookupN ((t, Node.file i m) :: fs.files.filter fun e => decide (e.1 ≠ f)) k = _
        by_cases hkt : k = t
        · rw [hkt]
          simp [lookupN]
        · rw [lookupN, if_neg (fun hc : t = k => hkt hc.symm), if_neg hkt]
          by_cases hkf : k = f
          · rw [hkf, lookupN_filter_self, if_pos rfl]
          · rw [lookupN_filter_ne hkf, if_neg hkf]
      rw [hlk2]
      unfold rekeyLookup
      by_cases hkt : k = t
      · rw [if_pos hkt, hkt, if_neg hFTn, if_pos (isPre_refl t), List.drop_length,
          List.append_nil, hf]
      · rw [if_neg hkt]
        by_cases hkf : k = f
        · rw [if_pos hkf, hkf, if_pos (isPre_refl f)]
        · rw [if_neg hkf]
          by_cases hfk : isPre f k = true
          · rw [if_pos hfk]
            exact file_no_strict_desc hf hWF k hfk hkf
          · rw [if_neg hfk]
            by_cases htk : isPre t k = true
            · rw [if_pos htk, hnu k htk]
              have hsne : k.drop t.length ≠ [] := by
                intro hc
                have hkeq := isPre_append_drop htk
                rw [hc, List.append_nil] at hkeq
                exact hkt hkeq.symm
              have hne2 : f ++ k.drop t.length ≠ f := by
                intro hc
                have hlen := congrArg List.length hc
                simp only [List.length_append] at hlen
                have : (k.drop t.length).length = 0 := by omega
                exact hsne (List.eq_nil_of_length_eq_zero this)
              exact (file_no_strict_desc hf hWF (f ++ k.drop t.length)
                (isPre_append f _) hne2).symm
            · rw [if_neg htk]

/-! ### Claim C5: rename of a directory moves the subtree -/

/-- C5: a successful directory rename re-keys the whole subtree — the
result map answers every lookup as the original with the `from` prefix
replaced by the `to` prefix, `from` and its old descendants gone — both
when the destination is absent and when a pre-existing **empty** directory
at the destination is removed first; renaming a directory onto a non-empty
directory, a file onto a directory, or a directory onto a file fails with
the generic error kind, and an absent source fails `NotFound`.  The re-key
conjuncts assume the well-formedness the registry maintains: unique keys,
parents of descendants present as directories, source and destination
prefix-incomparable, and nothing (or only the empty directory itself)
stored at or below the destination. -/
theorem c5_rename_dir_move :
    (∀ (fuel : Nat) (fs : FS) (f t : FsPath) (dm : Nat),
      lookupN fs.files f = some (.dir dm) →
      (∀ e ∈ fs.files, isPre t e.1 = false) →
      isPre t f = false → isPre f t = false →
      (∀ e ∈ fs.files, isPre f e.1 = true → e.1 ≠ f → isDirAtB fs e.1.dropLast = true) →
      (fs.files.map Prod.fst).Nodup →
      ∀ fs2, rename fuel fs f t = (fs2, .ok ()) →
      ∀ k, lookupN fs2.files k = rekeyLookup fs f t k) ∧
      (∀ (fuel : Nat) (fs : FS) (f t : FsPath) (dm dm2 : Nat),
        lookupN fs.files f = some (.dir dm) →
        lookupN fs.files t = some (.dir dm2) →
        (∀ e ∈ fs.files, isPre t e.1 = true → e.1 = t) →
        isPre t f = false → isPre f t = false →
        (∀ e ∈ fs.files, isPre f e.1 = true → e.1 ≠ f → isDirAtB fs e.1.dropLast = true) →
        (fs.files.map Prod.fst).Nodup →
        ∀ fs2, rename (fuel + 1) fs f t = (fs2, .ok ()) →
        ∀ k, lookupN fs2.files k = rekeyLookup fs f t k) ∧
      (∀ (fuel : Nat) (fs : FS) (f t : FsPath) (dm dm2 : Nat),
        lookupN fs.files f = some (.dir dm) → lookupN fs.files t = some (.dir dm2) →
        descendants fs t ≠ [] → rename (fuel + 1) fs f t = (fs, .err .other)) ∧
      (∀ (fuel : Nat) (fs : FS) (f t : FsPath) (i m dm2 : Nat),
        lookupN fs.files f = some (.file i m) → lookupN fs.files t = some (.dir dm2) →
        rename (fuel + 1) fs f t = (fs, .err .other)) ∧
      (∀ (fuel : Nat) (fs : FS) (f t : FsPath) (dm i2 m2 : Nat),
        lookupN fs.files f = some (.dir dm) → lookupN fs.files t = some (.file i2 m2) →
        rename (fuel + 1) fs f t = (fs, .err .other)) ∧
      (∀ (fuel : Nat) (fs : FS) (f t : FsPath),
        lookupN fs.files f = none → rename (fuel + 1) fs f t = (fs, .err .notFound)) := by
  refine ⟨?_, ?_, ?_, ?_, ?_, ?_⟩
  · intro fuel fs f t dm hf hnuE hTF hFT hWFE hnd fs2 hrun k
    exact rename_rekey fuel fs f t _ hf (noneUnder_of_entries hnuE) hTF hFT
      (localWF_of_entries hWFE) hnd fs2 hrun k
  · intro fuel fs f t dm dm2 hf ht hEmpty hTF hFT hWFE hnd fs2 hrun k
    have hFTn : ¬(isPre f t = true) := by
      intro h
      rw [hFT] at h
      cases h
    have htne : t ≠ f := by
      intro hc
      rw [← hc, isPre_refl] at hTF
      cases hTF
    have hdesc : descendants fs t = [] := by
      unfold descendants
      have hfil : fs.files.filter (fun e => isPre t e.1 && decide (e.1 ≠ t)) = [] := by
        refine List.filter_eq_nil_iff.mpr ?_
        intro e he hcon
        simp only [Bool.and_eq_true, decide_eq_true_eq] at hcon
        exact hcon.2 (hEmpty e he hcon.1)
      rw [hfil]
      rfl
    have hrmN : removeN fs t =
        ({ fs with files := fs.files.filter fun e => decide (e.1 ≠ t) }, .ok (.dir dm2)) := by
      simp [removeN, ht]
    have hred : rename (fuel + 1) fs f t =
        thenDo (removeN fs t) (fun fs1 _ => move_dirAux (rename fuel) fs1 f t) := by
      simp only [rename, hf, ht]
      rw [if_pos hdesc]
    rw [hred, hrmN] at hrun
    have hrun1 : move_dirAux (rename fuel)
        { fs with files := fs.files.filter fun e => decide (e.1 ≠ t) } f t =
        (fs2, .ok ()) := hrun
    set fsR : FS := { fs with files := fs.files.filter fun e => decide (e.1 ≠ t) }
      with hfsR
    have hlkR : ∀ q, lookupN fsR.files q =
        if q = t then none else lookupN fs.files q := by
      intro q
      by_cases hq : q = t
      · rw [hq, if_pos rfl]
        exact lookupN_filter_self
      · rw [if_neg hq]
        exact lookupN_filter_ne hq
    have hfR : lookupN fsR.files f = some (.dir dm) := by
      rw [hlkR f, if_neg (fun hc : f = t => htne hc.symm)]
      exact hf
    have hnuR : ∀ q, isPre t q = true → lookupN fsR.files q = none := by
      intro q hq
      rw [hlkR q]
      by_cases hqt : q = t
      · rw [if_pos hqt]
      · rw [if_neg hqt]
        cases hl : lookupN fs.files q with
        | none => rfl
        | some nq =>
          exact absurd (hEmpty (q, nq) (lookupN_mem hl) hq) hqt
    have hWFR : ∀ k2 nk2, lookupN fsR.files k2 = some nk2 → isPre f k2 = true →
        k2 ≠ f → ∃ md, lookupN fsR.files k2.dropLast = some (.dir md) := by
      intro k2 nk2 hlk2 hpre2 hne2
      have hk2t : k2 ≠ t := by
        intro hc
        rw [hlkR k2, if_pos hc] at hlk2
        cases hlk2
      rw [hlkR k2, if_neg hk2t] at hlk2
      obtain ⟨md, hmd⟩ := localWF_of_entries hWFE k2 nk2 hlk2 hpre2 hne2
      have hdlt : k2.dropLast ≠ t := by
        intro hc
        obtain ⟨s, rfl⟩ := isPre_iff.mp hpre2
        have hsne : s ≠ [] := by
          intro hcc
          subst hcc
          exact hne2 (by simp)
        rw [dropLast_append_ne hsne] at hc
        exact hFTn (by rw [← hc]; exact isPre_append f _)
      refine ⟨md, ?_⟩
      rw [hlkR _, if_neg hdlt]
      exact hmd
    have hndR : (fsR.files.map Prod.fst).Nodup :=
      hnd.sublist ((List.filter_sublist _).map Prod.fst)
    have hconc := move_dir_rekey fuel (rename_rekey fuel) hfR hnuR hTF hFT hWFR hndR
      fs2 hrun1 k
    rw [hconc]
    unfold rekeyLookup
    by_cases hfk : isPre f k = true
    · rw [if_pos hfk, if_pos hfk]
    · rw [if_neg hfk, if_neg hfk]
      by_cases htk : isPre t k = true
      · rw [if_pos htk, if_pos htk, hlkR _]
        have hne : f ++ k.drop t.length ≠ t := by
          intro hc
          exact hFTn (by rw [← hc]; exact isPre_append f _)
        rw [if_neg hne]
      · rw [if_neg htk, if_neg htk, hlkR _]
        have hne : k ≠ t := by
          intro hc
          rw [hc] at htk
          exact htk (isPre_refl t)
        rw [if_neg hne]
  · intro fuel fs f t dm dm2 hf ht hd
    simp only [rename, hf, ht]
    rw [if_neg hd]
  · intro fuel fs f t i m dm2 hf ht
    simp only [rename, hf, ht]
  · intro fuel fs f t dm i2 m2 hf ht
    simp only [rename, hf, ht]
  · intro fuel fs f t hf
    cases ht : lookupN fs.files t with
    | none => simp only [rename, hf, ht]
    | some nt =>
      cases nt with
      | file i m => simp only [rename, hf, ht]
      | dir m => simp only [rename, hf, ht]

/-- C5 witness: moving `/from` (containing `/from/child`) to the absent
`/to` re-keys the child to `/to/child`, preserving its node. -/
theorem c5_witness :
    lookupN (rename 5 exTreeFS ["from"] ["to"]).1.files ["to", "child"] =
      some (.file 0 0o644) := by
  have h := c5_rename_dir_move.1 5 exTreeFS ["from"] ["to"] 0o644 (by decide) (by decide)
    (by decide) (by decide) (by decide) (by decide)
    (rename 5 exTreeFS ["from"] ["to"]).1 (by decide)
  exact (h ["to", "child"]).trans (by decide)
